import Mathlib

/-!
# Verification of the LL(1) grammar-analysis and parsing pipeline

Shallow embedding of the grammar model, FIRST/FOLLOW fixed-point solver,
LL(1) parse-table builder, lexer and table-driven pushdown parser of
`src/Main.py`, together with theorems settling the frozen claims.

Python dictionaries preserve insertion order, so dictionaries are embedded
as ordered association lists; Python sets only ever grow here and are
queried by membership, so they are embedded as duplicate-free ordered
lists grown by appending.  `while changed:` loops are embedded with an
explicit fuel argument; the theorems quantify over the fuel wherever the
source runs the loop to quiescence.
-/

namespace LLPipeline

abbrev Sym := String

/-- One entry per key; mirrors a Python `Dict[str, Set[str]]`. -/
abbrev SMap := List (Sym × List Sym)

/-- `d.get(key, set())` — lookup with the empty set as default. -/
def mlookup : SMap → Sym → List Sym
  | [], _ => []
  | (k, v) :: rest, key => if k = key then v else mlookup rest key

/-- `d.get(key)` — lookup returning `none` when the key is absent
(a plain `d[key]` in the source raises `KeyError` there). -/
def mlookupOpt : SMap → Sym → Option (List Sym)
  | [], _ => none
  | (k, v) :: rest, key => if k = key then some v else mlookupOpt rest key

/-- `set.add x` on the ordered-list embedding of a set. -/
def addOne (xs : List Sym) (x : Sym) : List Sym :=
  if x ∈ xs then xs else xs ++ [x]

/-- `set.update ys` on the ordered-list embedding of a set. -/
def addAll (xs ys : List Sym) : List Sym :=
  ys.foldl addOne xs

/-- `d[key].add x`, a no-op when the key is absent (the source raises
`KeyError` in that case; all uses are guarded by key membership). -/
def mapAdd : SMap → Sym → Sym → SMap
  | [], _, _ => []
  | (k, v) :: rest, key, x =>
    if k = key then (k, addOne v x) :: rest else (k, v) :: mapAdd rest key x

/-- `d[key].update xs`, a no-op when the key is absent. -/
def mapAddAll : SMap → Sym → List Sym → SMap
  | [], _, _ => []
  | (k, v) :: rest, key, xs =>
    if k = key then (k, addAll v xs) :: rest else (k, v) :: mapAddAll rest key xs

/-- The grammar model of `class Grammar`: the analysis methods read only
these four fields.  A production right-hand side is stored pre-split on
whitespace (`rule.split()` in the source). -/
structure Grammar where
  start_symbol : Option Sym
  non_terminals : List Sym
  terminals : List Sym
  productions : List (Sym × List (List Sym))
deriving DecidableEq, Repr

/-- `{nt: set() for nt in self.non_terminals}`. -/
def initSets (g : Grammar) : SMap :=
  g.non_terminals.map (fun nt => (nt, []))

/-!
## FIRST sets (`Grammar.compute_first_sets`, Main.py lines 121-149)

The inner `for symbol in symbols` loop with its `break`/`continue`/`else`
shape.  Note: in the non-terminal branch the source computes `before_len`
but never reads it, so `changed` is **not** set when a FIRST set grows by
propagation from another non-terminal's FIRST set; the embedding mirrors
that.
-/

def firstSymStep (g : Grammar) (nt : Sym) :
    List Sym → SMap → Bool → SMap × Bool
  | [], m, ch =>
    -- `for ... else`: every symbol's FIRST contained eps
    if "eps" ∈ mlookup m nt then (m, ch) else (mapAdd m nt "eps", true)
  | sym :: rest, m, ch =>
    if sym ∈ g.terminals ∨ sym = "eps" then
      if sym ∈ mlookup m nt then (m, ch) else (mapAdd m nt sym, true)
    else
      let m2 := mapAddAll m nt ((mlookup m sym).filter (fun s => s ≠ "eps"))
      if "eps" ∈ mlookup m2 sym then firstSymStep g nt rest m2 ch
      else (m2, ch)

def firstRules (g : Grammar) (nt : Sym) :
    List (List Sym) → SMap × Bool → SMap × Bool
  | [], mb => mb
  | rule :: rs, (m, ch) =>
    firstRules g nt rs (firstSymStep g nt rule m ch)

def firstPass (g : Grammar) :
    List (Sym × List (List Sym)) → SMap × Bool → SMap × Bool
  | [], mb => mb
  | (nt, rules) :: ps, mb =>
    firstPass g ps (firstRules g nt rules mb)

/-- `while changed:` of `compute_first_sets`, with fuel. -/
def firstLoop (g : Grammar) : Nat → SMap → SMap
  | 0, m => m
  | fuel + 1, m =>
    match firstPass g g.productions (m, false) with
    | (m2, true) => firstLoop g fuel m2
    | (m2, false) => m2

/-- `Grammar.compute_first_sets`; the fuel bounds the `while changed` loop. -/
def computeFirstSets (g : Grammar) (fuel : Nat) : SMap :=
  firstLoop g fuel (initSets g)

/-!
## Derivations

One step rewrites a non-terminal occurrence by one of its rules; the
single-symbol rule `["eps"]` stands for the empty alternative.
-/

def ruleRhs (r : List Sym) : List Sym :=
  if r = ["eps"] then [] else r

inductive DStep (g : Grammar) : List Sym → List Sym → Prop
  | rewrite (A : Sym) (rs : List (List Sym)) (r : List Sym) (xs ys : List Sym)
      (hA : (A, rs) ∈ g.productions) (hr : r ∈ rs) :
      DStep g (xs ++ A :: ys) (xs ++ ruleRhs r ++ ys)

/-- Reflexive-transitive derivation relation of the grammar. -/
def Derives (g : Grammar) : List Sym → List Sym → Prop :=
  Relation.ReflTransGen (DStep g)

/-- A grammar with no ε-productions. -/
def NoEpsProductions (g : Grammar) : Prop :=
  ∀ p ∈ g.productions, ∀ r ∈ p.2, r ≠ ["eps"] ∧ "eps" ∉ r

instance (g : Grammar) : Decidable (NoEpsProductions g) := by
  unfold NoEpsProductions; infer_instance

/-- The chain grammar `A -> B`, `B -> C`, `C -> d` declared in that order. -/
def chainG : Grammar :=
  { start_symbol := some "A"
    non_terminals := ["A", "B", "C"]
    terminals := ["d"]
    productions := [("A", [["B"]]), ("B", [["C"]]), ("C", [["d"]])] }

/-!
## FIRST of a symbol sequence (`Grammar._first_of_sequence`, lines 151-165)
and FOLLOW sets (`Grammar.compute_follow_sets`, lines 167-187)
-/

def firstOfSeqAux (g : Grammar) (fs : SMap) : List Sym → List Sym → List Sym
  | [], acc => addOne acc "eps"
  | sym :: rest, acc =>
    if sym ∈ g.terminals then addOne acc sym
    else if sym ∈ g.non_terminals then
      let acc2 := addAll acc ((mlookup fs sym).filter (fun s => s ≠ "eps"))
      if "eps" ∈ mlookup fs sym then firstOfSeqAux g fs rest acc2 else acc2
    else addOne acc sym

/-- `Grammar._first_of_sequence`, computed from the FIRST table `fs`. -/
def firstOfSequence (g : Grammar) (fs : SMap) (seq : List Sym) : List Sym :=
  firstOfSeqAux g fs seq []

/-- The `for i, sym in enumerate(symbols)` body of `compute_follow_sets`:
for each non-terminal occurrence, grow FOLLOW(sym) from FIRST of the rest of
the rule and, when that FIRST has ε or the rest is empty, from FOLLOW(lhs).
Unlike `compute_first_sets`, growth is detected here (`follow_before`
comparison), so `changed` is set faithfully. -/
def followSymStep (g : Grammar) (fs : SMap) (lhs : Sym) :
    List Sym → SMap × Bool → SMap × Bool
  | [], mb => mb
  | sym :: rest, (m, ch) =>
    if sym ∈ g.non_terminals then
      let before := mlookup m sym
      let firstNext := firstOfSequence g fs rest
      let m2 := mapAddAll m sym (firstNext.filter (fun s => s ≠ "eps"))
      let m3 := if "eps" ∈ firstNext ∨ rest = [] then
        mapAddAll m2 sym (mlookup m2 lhs) else m2
      let ch2 := if mlookup m3 sym ≠ before then true else ch
      followSymStep g fs lhs rest (m3, ch2)
    else
      followSymStep g fs lhs rest (m, ch)

def followRules (g : Grammar) (fs : SMap) (lhs : Sym) :
    List (List Sym) → SMap × Bool → SMap × Bool
  | [], mb => mb
  | rule :: rs, mb =>
    followRules g fs lhs rs (followSymStep g fs lhs rule mb)

def followPass (g : Grammar) (fs : SMap) :
    List (Sym × List (List Sym)) → SMap × Bool → SMap × Bool
  | [], mb => mb
  | (lhs, rules) :: ps, mb =>
    followPass g fs ps (followRules g fs lhs rules mb)

/-- `while changed:` of `compute_follow_sets`, with fuel. -/
def followLoop (g : Grammar) (fs : SMap) : Nat → SMap → SMap
  | 0, m => m
  | fuel + 1, m =>
    match followPass g fs g.productions (m, false) with
    | (m2, true) => followLoop g fs fuel m2
    | (m2, false) => m2

set_option linter.unusedVariables false in
/-- `Grammar.compute_follow_sets` as a transformer of the `follow_sets`
field: `prev` is the field's value before the call, the `Bool` records
whether the `RuntimeError("Start symbol not set!")` was raised.  Mirroring
the source, `self.follow_sets` is re-initialised to fresh empty sets
*before* the start-symbol check, so on error the resulting field is the
fresh initialisation, not `prev`; `if not self.start_symbol` is true for
`None` and for the empty string. -/
def computeFollowSetsFrom (g : Grammar) (fs : SMap) (fuel : Nat)
    (prev : SMap) : SMap × Bool :=
  let init := initSets g
  match g.start_symbol with
  | none => (init, true)
  | some s =>
    if s = "" then (init, true)
    else (followLoop g fs fuel (mapAdd init s "$"), false)

set_option linter.unusedVariables false in
theorem computeFollowSetsFrom_ignores_prev (g : Grammar) (fs : SMap)
    (fuel : Nat) (prev prev2 : SMap) :
    computeFollowSetsFrom g fs fuel prev = computeFollowSetsFrom g fs fuel prev2 := rfl

/-!
## Monotonicity of the FOLLOW pass

Every write in `compute_follow_sets` is a `set.add`/`set.update`, so
membership in a FOLLOW set is preserved by the pass and by the loop.
-/

theorem mem_addOne {x : Sym} {xs : List Sym} (y : Sym) (h : x ∈ xs) :
    x ∈ addOne xs y := by
  unfold addOne; split <;> simp [h]

theorem self_mem_addOne (xs : List Sym) (x : Sym) : x ∈ addOne xs x := by
  unfold addOne; split <;> simp_all

theorem mem_addAll {x : Sym} {xs : List Sym} (ys : List Sym) (h : x ∈ xs) :
    x ∈ addAll xs ys := by
  induction ys generalizing xs with
  | nil => exact h
  | cons y ys ih => exact ih (mem_addOne y h)

theorem mem_mlookup_mapAdd {x : Sym} {m : SMap} {k : Sym}
    (k2 y : Sym) (h : x ∈ mlookup m k) : x ∈ mlookup (mapAdd m k2 y) k := by
  induction m with
  | nil => simpa [mapAdd] using h
  | cons p rest ih =>
    obtain ⟨pk, pv⟩ := p
    by_cases hk : pk = k2
    · simp only [mapAdd, if_pos hk]
      by_cases hk2 : pk = k
      · simp only [mlookup, if_pos hk2] at h ⊢; exact mem_addOne y h
      · simp only [mlookup, if_neg hk2] at h ⊢; exact h
    · simp only [mapAdd, if_neg hk]
      by_cases hk2 : pk = k
      · simp only [mlookup, if_pos hk2] at h ⊢; exact h
      · simp only [mlookup, if_neg hk2] at h ⊢; exact ih h

theorem mem_mlookup_mapAddAll {x : Sym} {m : SMap} {k : Sym}
    (k2 : Sym) (ys : List Sym) (h : x ∈ mlookup m k) :
    x ∈ mlookup (mapAddAll m k2 ys) k := by
  induction m with
  | nil => simpa [mapAddAll] using h
  | cons p rest ih =>
    obtain ⟨pk, pv⟩ := p
    by_cases hk : pk = k2
    · simp only [mapAddAll, if_pos hk]
      by_cases hk2 : pk = k
      · simp only [mlookup, if_pos hk2] at h ⊢; exact mem_addAll ys h
      · simp only [mlookup, if_neg hk2] at h ⊢; exact h
    · simp only [mapAddAll, if_neg hk]
      by_cases hk2 : pk = k
      · simp only [mlookup, if_pos hk2] at h ⊢; exact h
      · simp only [mlookup, if_neg hk2] at h ⊢; exact ih h

theorem followSymStep_mono (g : Grammar) (fs : SMap) (lhs : Sym)
    (syms : List Sym) {x k : Sym} :
    ∀ (m : SMap) (ch : Bool), x ∈ mlookup m k →
      x ∈ mlookup (followSymStep g fs lhs syms (m, ch)).1 k := by
  induction syms with
  | nil => intro m ch h; exact h
  | cons sym rest ih =>
    intro m ch h
    simp only [followSymStep]
    split
    · apply ih
      split
      · exact mem_mlookup_mapAddAll _ _ (mem_mlookup_mapAddAll _ _ h)
      · exact mem_mlookup_mapAddAll _ _ h
    · exact ih m ch h

theorem followRules_mono (g : Grammar) (fs : SMap) (lhs : Sym)
    (rs : List (List Sym)) {x k : Sym} :
    ∀ (mb : SMap × Bool), x ∈ mlookup mb.1 k →
      x ∈ mlookup (followRules g fs lhs rs mb).1 k := by
  induction rs with
  | nil => intro mb h; exact h
  | cons rule rs ih =>
    intro mb h
    exact ih _ (followSymStep_mono g fs lhs rule mb.1 mb.2 h)

theorem followPass_mono (g : Grammar) (fs : SMap)
    (ps : List (Sym × List (List Sym))) {x k : Sym} :
    ∀ (mb : SMap × Bool), x ∈ mlookup mb.1 k →
      x ∈ mlookup (followPass g fs ps mb).1 k := by
  induction ps with
  | nil => intro mb h; exact h
  | cons p ps ih =>
    intro mb h
    exact ih _ (followRules_mono g fs p.1 p.2 mb h)

theorem followLoop_mono (g : Grammar) (fs : SMap) (fuel : Nat) {x k : Sym} :
    ∀ (m : SMap), x ∈ mlookup m k → x ∈ mlookup (followLoop g fs fuel m) k := by
  induction fuel with
  | zero => intro m h; exact h
  | succ fuel ih =>
    intro m h
    simp only [followLoop]
    have hp := followPass_mono g fs g.productions (m, false) h
    split
    · next m2 heq =>
      apply ih
      rw [heq] at hp
      exact hp
    · next m2 heq =>
      rw [heq] at hp
      exact hp

theorem mlookupOpt_map_empty {s : Sym} (l : List Sym) (h : s ∈ l) :
    mlookupOpt (l.map (fun nt => (nt, ([] : List Sym)))) s = some [] := by
  induction l with
  | nil => simp at h
  | cons nt nts ih =>
    simp only [List.map, mlookupOpt]
    by_cases hs : nt = s
    · simp [hs]
    · simp only [if_neg hs]
      rcases List.mem_cons.mp h with h | h
      · exact absurd h.symm hs
      · exact ih h

theorem mlookupOpt_initSets {g : Grammar} {s : Sym}
    (h : s ∈ g.non_terminals) : mlookupOpt (initSets g) s = some [] :=
  mlookupOpt_map_empty g.non_terminals h

theorem mem_mlookup_mapAdd_self {m : SMap} {k x : Sym}
    (h : (mlookupOpt m k).isSome) : x ∈ mlookup (mapAdd m k x) k := by
  induction m with
  | nil => simp [mlookupOpt] at h
  | cons p rest ih =>
    obtain ⟨pk, pv⟩ := p
    by_cases hk : pk = k
    · simp [mapAdd, mlookup, if_pos hk, self_mem_addOne]
    · simp only [mlookupOpt, if_neg hk] at h
      simp only [mapAdd, mlookup, if_neg hk]
      exact ih h

/-- C6: for every grammar with a (truthy) start symbol that is one of the
non-terminals, `compute_follow_sets` completes without error and the
resulting FOLLOW(start) contains the end marker `$`, for every fuel and
whatever the prior `follow_sets` field held: the end marker is inserted
right after initialisation and every later write only adds elements. -/
theorem c6_follow_start_has_end_marker (g : Grammar) (fs : SMap)
    (fuel : Nat) (prev : SMap) (s : Sym)
    (hstart : g.start_symbol = some s) (hne : s ≠ "")
    (hmem : s ∈ g.non_terminals) :
    (computeFollowSetsFrom g fs fuel prev).2 = false ∧
    "$" ∈ mlookup (computeFollowSetsFrom g fs fuel prev).1 s := by
  unfold computeFollowSetsFrom
  rw [hstart]
  simp only [if_neg hne]
  refine ⟨by simp, ?_⟩
  apply followLoop_mono
  exact mem_mlookup_mapAdd_self (by rw [mlookupOpt_initSets hmem]; rfl)

/-- Witness for `c6_follow_start_has_end_marker` at the chain grammar. -/
theorem c6_follow_start_has_end_marker_witness :
    (computeFollowSetsFrom chainG (computeFirstSets chainG 10) 10 []).2 = false ∧
    "$" ∈ mlookup (computeFollowSetsFrom chainG (computeFirstSets chainG 10) 10 []).1 "A" :=
  c6_follow_start_has_end_marker chainG (computeFirstSets chainG 10) 10 [] "A"
    rfl (by decide) (by decide)

/-- The grammar of C7's counterexample: non-terminal `A`, no start symbol. -/
def noStartG : Grammar :=
  { start_symbol := none
    non_terminals := ["A"]
    terminals := []
    productions := [] }

/-- C7 counterexample: the claim says the configuration error is raised
*before any FOLLOW state is written*.  In the source `self.follow_sets` is
re-initialised to fresh empty sets (line 168) before the start-symbol check
(lines 169-170), so a prior FOLLOW state `{A: {x}}` is overwritten even
though the error is raised. -/
theorem c7_follow_state_written_before_error :
    (computeFollowSetsFrom noStartG [] 5 [("A", ["x"])]).2 = true ∧
    (computeFollowSetsFrom noStartG [] 5 [("A", ["x"])]).1 ≠ [("A", ["x"])] ∧
    (computeFollowSetsFrom noStartG [] 5 [("A", ["x"])]).1 = [("A", [])] := by
  decide

/-- C7 amended: the configuration error is raised exactly when the start
symbol is unset (or the falsy empty string), and it is raised before the
end marker is inserted and before any propagation — but only after
`follow_sets` has been re-initialised to fresh empty sets, so the prior
FOLLOW state is clobbered even on the error path. -/
theorem c7_amended_error_iff_no_start (g : Grammar) (fs : SMap)
    (fuel : Nat) (prev : SMap) :
    ((computeFollowSetsFrom g fs fuel prev).2 = true ↔
      (g.start_symbol = none ∨ g.start_symbol = some "")) ∧
    ((computeFollowSetsFrom g fs fuel prev).2 = true →
      (computeFollowSetsFrom g fs fuel prev).1 = initSets g) := by
  unfold computeFollowSetsFrom
  match hs : g.start_symbol with
  | none => simp
  | some s =>
    by_cases he : s = ""
    · simp [he]
    · simp [if_neg he, he]

/-- Witness for `c7_amended_error_iff_no_start` at a concrete grammar. -/
theorem c7_amended_error_iff_no_start_witness :
    ((computeFollowSetsFrom noStartG [] 5 [("A", ["x"])]).2 = true ↔
      (noStartG.start_symbol = none ∨ noStartG.start_symbol = some "")) ∧
    ((computeFollowSetsFrom noStartG [] 5 [("A", ["x"])]).2 = true →
      (computeFollowSetsFrom noStartG [] 5 [("A", ["x"])]).1 = initSets noStartG) :=
  c7_amended_error_iff_no_start noStartG [] 5 [("A", ["x"])]

/-!
## Parse table (`Grammar.build_parse_table`, lines 189-202)

`parse_table` is a dict of dicts; rows are created for every non-terminal,
then each production writes its cells, later writes silently overwriting
earlier ones.  Writing a row for an unknown left-hand side raises
`KeyError` in the source; the embedding returns `none` there.
-/

abbrev Row := List (Sym × List Sym)
abbrev PTable := List (Sym × Row)

/-- `row[t] = r` on a dict row: overwrite in place or append. -/
def rowSet : Row → Sym → List Sym → Row
  | [], t, r => [(t, r)]
  | (t2, r2) :: rest, t, r =>
    if t2 = t then (t2, r) :: rest else (t2, r2) :: rowSet rest t r

def rowGet : Row → Sym → Option (List Sym)
  | [], _ => none
  | (t2, r2) :: rest, t => if t2 = t then some r2 else rowGet rest t

/-- `self.parse_table[nt][terminal] = rule`; `none` models the `KeyError`
raised when `nt` has no row. -/
def tableSet : PTable → Sym → Sym → List Sym → Option PTable
  | [], _, _, _ => none
  | (nt2, row) :: rest, nt, t, r =>
    if nt2 = nt then some ((nt2, rowSet row t r) :: rest)
    else (tableSet rest nt t r).map (fun tb => (nt2, row) :: tb)

/-- `self.parse_table.get(nt, {}).get(t)`. -/
def getCell : PTable → Sym → Sym → Option (List Sym)
  | [], _, _ => none
  | (nt2, row) :: rest, nt, t =>
    if nt2 = nt then rowGet row t else getCell rest nt t

def hasKey : PTable → Sym → Bool
  | [], _ => false
  | (nt2, _) :: rest, nt => if nt2 = nt then true else hasKey rest nt

/-- `{nt: {} for nt in self.non_terminals}`. -/
def initTable (g : Grammar) : PTable :=
  g.non_terminals.map (fun nt => (nt, []))

/-- Write `rule` into cell `(nt, t)` for every `t` in `ts`. -/
def setMany (nt : Sym) (rule : List Sym) : List Sym → PTable → Option PTable
  | [], tbl => some tbl
  | t :: ts, tbl =>
    match tableSet tbl nt t rule with
    | none => none
    | some tbl2 => setMany nt rule ts tbl2

/-- `for terminal in first: if terminal != "eps":` — the non-ε entries of a
FIRST set. -/
def dropEps (xs : List Sym) : List Sym :=
  xs.filter (fun t => t ≠ "eps")

theorem mem_dropEps {t : Sym} {xs : List Sym} :
    t ∈ dropEps xs ↔ t ∈ xs ∧ t ≠ "eps" := by
  unfold dropEps
  rw [List.mem_filter]
  simp

/-- The per-production body of `build_parse_table`: write the cells for
FIRST(rule)−{ε}, and when ε ∈ FIRST(rule) also the cells for FOLLOW(nt)
(`self.follow_sets[nt]` raises `KeyError` when absent, hence the
`mlookupOpt`). -/
def fillRule (g : Grammar) (fs fl : SMap) (nt : Sym) (rule : List Sym)
    (tbl : PTable) : Option PTable :=
  let F := firstOfSequence g fs rule
  match setMany nt rule (dropEps F) tbl with
  | none => none
  | some tbl2 =>
    if "eps" ∈ F then
      match mlookupOpt fl nt with
      | none => none
      | some follows => setMany nt rule follows tbl2
    else some tbl2

def fillRules (g : Grammar) (fs fl : SMap) (nt : Sym) :
    List (List Sym) → PTable → Option PTable
  | [], tbl => some tbl
  | rule :: rs, tbl =>
    match fillRule g fs fl nt rule tbl with
    | none => none
    | some tbl2 => fillRules g fs fl nt rs tbl2

def fillAll (g : Grammar) (fs fl : SMap) :
    List (Sym × List (List Sym)) → PTable → Option PTable
  | [], tbl => some tbl
  | (nt, rules) :: ps, tbl =>
    match fillRules g fs fl nt rules tbl with
    | none => none
    | some tbl2 => fillAll g fs fl ps tbl2

/-- `Grammar.build_parse_table`: compute FIRST, compute FOLLOW (which can
raise the configuration error), then fill the table. -/
def buildParseTable (g : Grammar) (fuel : Nat) : Option PTable :=
  let fs := computeFirstSets g fuel
  match computeFollowSetsFrom g fs fuel [] with
  | (_, true) => none
  | (fl, false) => fillAll g fs fl g.productions (initTable g)

/-- Production `nt -> rule` claims cell `(nt, t)`: `t ∈ FIRST(rule) − {ε}`,
or `ε ∈ FIRST(rule)` and `t ∈ FOLLOW(nt)`. -/
def cellClaimed (g : Grammar) (fs fl : SMap) (nt : Sym) (rule : List Sym)
    (t : Sym) : Prop :=
  (t ∈ firstOfSequence g fs rule ∧ t ≠ "eps") ∨
  ("eps" ∈ firstOfSequence g fs rule ∧ t ∈ mlookup fl nt)

instance (g : Grammar) (fs fl : SMap) (nt : Sym) (rule : List Sym) (t : Sym) :
    Decidable (cellClaimed g fs fl nt rule t) := by
  unfold cellClaimed; infer_instance

/-- Value of cell `(nt, t)` after the rules of one production entry are
processed, starting from `acc`: the last claiming rule wins. -/
def lastClaim (g : Grammar) (fs fl : SMap) (nt : Sym) (rules : List (List Sym))
    (t : Sym) (acc : Option (List Sym)) : Option (List Sym) :=
  rules.foldl
    (fun acc r => if cellClaimed g fs fl nt r t then some r else acc) acc

/-- Value of cell `(nt, t)` after all production entries are processed,
starting from `acc`. -/
def tableSpec (g : Grammar) (fs fl : SMap)
    (prods : List (Sym × List (List Sym))) (nt : Sym) (t : Sym)
    (acc : Option (List Sym)) : Option (List Sym) :=
  prods.foldl
    (fun acc p => if p.1 = nt then lastClaim g fs fl nt p.2 t acc else acc) acc

theorem lastClaim_nil (g : Grammar) (fs fl : SMap) (nt t : Sym)
    (acc : Option (List Sym)) : lastClaim g fs fl nt [] t acc = acc := rfl

theorem lastClaim_cons (g : Grammar) (fs fl : SMap) (nt t : Sym)
    (r : List Sym) (rs : List (List Sym)) (acc : Option (List Sym)) :
    lastClaim g fs fl nt (r :: rs) t acc =
      lastClaim g fs fl nt rs t
        (if cellClaimed g fs fl nt r t then some r else acc) := rfl

theorem tableSpec_nil (g : Grammar) (fs fl : SMap) (nt t : Sym)
    (acc : Option (List Sym)) : tableSpec g fs fl [] nt t acc = acc := rfl

theorem tableSpec_cons (g : Grammar) (fs fl : SMap) (nt t : Sym)
    (p : Sym × List (List Sym)) (ps : List (Sym × List (List Sym)))
    (acc : Option (List Sym)) :
    tableSpec g fs fl (p :: ps) nt t acc =
      tableSpec g fs fl ps nt t
        (if p.1 = nt then lastClaim g fs fl nt p.2 t acc else acc) := rfl

theorem rowGet_rowSet (row : Row) (t : Sym) (r : List Sym) (t2 : Sym) :
    rowGet (rowSet row t r) t2 = if t2 = t then some r else rowGet row t2 := by
  induction row with
  | nil =>
    by_cases h : t2 = t
    · simp [rowSet, rowGet, h]
    · have h2 : ¬ t = t2 := fun hh => h hh.symm
      simp [rowSet, rowGet, h, h2]
  | cons p rest ih =>
    obtain ⟨tk, tv⟩ := p
    by_cases hk : tk = t
    · by_cases h2 : tk = t2
      · have h3 : t2 = t := h2.symm.trans hk
        simp [rowSet, rowGet, hk, h2, h3]
      · have h3 : ¬ t2 = t := fun hh => h2 (hk.trans hh.symm)
        have h4 : ¬ t = t2 := fun hh => h2 (hk.trans hh)
        simp [rowSet, rowGet, hk, h2, h3, h4]
    · by_cases h2 : tk = t2
      · have h3 : ¬ t2 = t := fun hh => hk (h2.trans hh)
        simp [rowSet, rowGet, hk, h2, h3]
      · simp [rowSet, rowGet, hk, h2, ih]

theorem tableSet_getCell {tbl : PTable} {nt t : Sym} {r : List Sym}
    {tbl2 : PTable} (h : tableSet tbl nt t r = some tbl2) (nt2 t2 : Sym) :
    getCell tbl2 nt2 t2 =
      if nt2 = nt ∧ t2 = t then some r else getCell tbl nt2 t2 := by
  induction tbl generalizing tbl2 with
  | nil => simp [tableSet] at h
  | cons p rest ih =>
    obtain ⟨ntk, row⟩ := p
    by_cases hk : ntk = nt
    · simp only [tableSet, if_pos hk, Option.some.injEq] at h
      subst h
      by_cases h2 : ntk = nt2
      · have h4 : nt2 = nt := h2.symm.trans hk
        simp only [getCell, if_pos h2, rowGet_rowSet]
        by_cases h3 : t2 = t
        · simp [h3, h4]
        · simp [h3, h4]
      · have h4 : ¬ nt2 = nt := fun hh => h2 (hk.symm ▸ hh.symm)
        simp [getCell, h2, h4]
    · simp only [tableSet, if_neg hk] at h
      cases hrec : tableSet rest nt t r with
      | none => rw [hrec] at h; simp at h
      | some tb =>
        rw [hrec] at h
        simp only [Option.map_some', Option.some.injEq] at h
        subst h
        by_cases h2 : ntk = nt2
        · have h4 : ¬ nt2 = nt := fun hh => hk (h2.trans hh)
          simp [getCell, h2, h4]
        · simp [getCell, h2, ih hrec]

theorem tableSet_isSome {tbl : PTable} {nt : Sym} (t : Sym) (r : List Sym)
    (h : hasKey tbl nt = true) : (tableSet tbl nt t r).isSome := by
  induction tbl with
  | nil => simp [hasKey] at h
  | cons p rest ih =>
    obtain ⟨ntk, row⟩ := p
    by_cases hk : ntk = nt
    · simp [tableSet, hk]
    · simp only [hasKey, if_neg hk] at h
      simp only [tableSet, if_neg hk]
      cases hrec : tableSet rest nt t r with
      | none => have := ih h; rw [hrec] at this; simp at this
      | some tb => simp

theorem tableSet_hasKey {tbl : PTable} {nt t : Sym} {r : List Sym}
    {tbl2 : PTable} (h : tableSet tbl nt t r = some tbl2) (k : Sym) :
    hasKey tbl2 k = hasKey tbl k := by
  induction tbl generalizing tbl2 with
  | nil => simp [tableSet] at h
  | cons p rest ih =>
    obtain ⟨ntk, row⟩ := p
    by_cases hk : ntk = nt
    · simp only [tableSet, if_pos hk, Option.some.injEq] at h
      subst h
      simp [hasKey]
    · simp only [tableSet, if_neg hk] at h
      cases hrec : tableSet rest nt t r with
      | none => rw [hrec] at h; simp at h
      | some tb =>
        rw [hrec] at h
        simp only [Option.map_some', Option.some.injEq] at h
        subst h
        simp [hasKey, ih hrec]

theorem setMany_getCell {nt : Sym} {rule : List Sym} {ts : List Sym}
    {tbl tbl2 : PTable} (h : setMany nt rule ts tbl = some tbl2)
    (nt2 t2 : Sym) :
    getCell tbl2 nt2 t2 =
      if nt2 = nt ∧ t2 ∈ ts then some rule else getCell tbl nt2 t2 := by
  induction ts generalizing tbl tbl2 with
  | nil =>
    simp only [setMany, Option.some.injEq] at h
    subst h
    simp
  | cons t ts ih =>
    cases hset : tableSet tbl nt t rule with
    | none => simp [setMany, hset] at h
    | some tb =>
      simp only [setMany, hset] at h
      rw [ih h, tableSet_getCell hset nt2 t2]
      by_cases h1 : nt2 = nt
      · by_cases h2 : t2 ∈ ts
        · simp [h1, h2]
        · by_cases h3 : t2 = t <;> simp [h1, h2, h3]
      · simp [h1]

theorem setMany_isSome {nt : Sym} (rule : List Sym) (ts : List Sym)
    {tbl : PTable} (h : hasKey tbl nt = true) :
    (setMany nt rule ts tbl).isSome := by
  induction ts generalizing tbl with
  | nil => simp [setMany]
  | cons t ts ih =>
    cases hset : tableSet tbl nt t rule with
    | none =>
      have := @tableSet_isSome tbl nt t rule h
      rw [hset] at this; simp at this
    | some tb =>
      simp only [setMany, hset]
      exact ih (by rw [tableSet_hasKey hset]; exact h)

theorem setMany_hasKey {nt : Sym} {rule : List Sym} {ts : List Sym}
    {tbl tbl2 : PTable} (h : setMany nt rule ts tbl = some tbl2) (k : Sym) :
    hasKey tbl2 k = hasKey tbl k := by
  induction ts generalizing tbl tbl2 with
  | nil => simp only [setMany, Option.some.injEq] at h; subst h; rfl
  | cons t ts ih =>
    cases hset : tableSet tbl nt t rule with
    | none => simp [setMany, hset] at h
    | some tb =>
      simp only [setMany, hset] at h
      rw [ih h, tableSet_hasKey hset]

theorem mlookup_eq_of_mlookupOpt {m : SMap} {k : Sym} {v : List Sym}
    (h : mlookupOpt m k = some v) : mlookup m k = v := by
  induction m with
  | nil => simp [mlookupOpt] at h
  | cons p rest ih =>
    obtain ⟨pk, pv⟩ := p
    by_cases hk : pk = k
    · simp only [mlookupOpt, if_pos hk, Option.some.injEq] at h
      simp [mlookup, hk, h]
    · simp only [mlookupOpt, if_neg hk] at h
      simp [mlookup, hk, ih h]

theorem fillRule_getCell {g : Grammar} {fs fl : SMap} {nt : Sym}
    {rule : List Sym} {tbl tbl2 : PTable}
    (h : fillRule g fs fl nt rule tbl = some tbl2) (nt2 t2 : Sym) :
    getCell tbl2 nt2 t2 =
      if nt2 = nt ∧ cellClaimed g fs fl nt rule t2 then some rule
      else getCell tbl nt2 t2 := by
  simp only [fillRule] at h
  cases h1 : setMany nt rule (dropEps (firstOfSequence g fs rule)) tbl with
  | none => rw [h1] at h; simp at h
  | some tblA =>
    rw [h1] at h
    dsimp only at h
    have e1 := setMany_getCell h1 nt2 t2
    by_cases heps : "eps" ∈ firstOfSequence g fs rule
    · rw [if_pos heps] at h
      cases h2 : mlookupOpt fl nt with
      | none => rw [h2] at h; simp at h
      | some follows =>
        rw [h2] at h
        have e2 := setMany_getCell h nt2 t2
        rw [e2, e1]
        have hfol : mlookup fl nt = follows := mlookup_eq_of_mlookupOpt h2
        by_cases hn : nt2 = nt
        · by_cases hf : t2 ∈ follows
          · have hc : cellClaimed g fs fl nt rule t2 := Or.inr ⟨heps, hfol ▸ hf⟩
            simp [hn, hf, hc]
          · by_cases hF : t2 ∈ dropEps (firstOfSequence g fs rule)
            · have hc : cellClaimed g fs fl nt rule t2 := by
                rcases mem_dropEps.mp hF with ⟨hm, hne⟩
                exact Or.inl ⟨hm, hne⟩
              simp [hn, hf, hF, hc]
            · have hc : ¬ cellClaimed g fs fl nt rule t2 := by
                rintro (⟨hm, hne⟩ | ⟨_, hm⟩)
                · exact hF (mem_dropEps.mpr ⟨hm, hne⟩)
                · exact hf (hfol ▸ hm)
              simp [hn, hf, hF, hc]
        · simp [hn]
    · rw [if_neg heps] at h
      cases h
      rw [e1]
      by_cases hn : nt2 = nt
      · by_cases hF : t2 ∈ dropEps (firstOfSequence g fs rule)
        · have hc : cellClaimed g fs fl nt rule t2 := by
            rcases mem_dropEps.mp hF with ⟨hm, hne⟩
            exact Or.inl ⟨hm, hne⟩
          simp [hn, hF, hc]
        · have hc : ¬ cellClaimed g fs fl nt rule t2 := by
            rintro (⟨hm, hne⟩ | ⟨he, _⟩)
            · exact hF (mem_dropEps.mpr ⟨hm, hne⟩)
            · exact heps he
          simp [hn, hF, hc]
      · simp [hn]

theorem fillRule_isSome {g : Grammar} {fs fl : SMap} {nt : Sym}
    (rule : List Sym) {tbl : PTable} (h : hasKey tbl nt = true)
    (hfl : (mlookupOpt fl nt).isSome) :
    (fillRule g fs fl nt rule tbl).isSome := by
  cases hfr : fillRule g fs fl nt rule tbl with
  | some tblB => simp
  | none =>
    exfalso
    simp only [fillRule] at hfr
    cases h1 : setMany nt rule (dropEps (firstOfSequence g fs rule)) tbl with
    | none =>
      have := setMany_isSome rule (dropEps (firstOfSequence g fs rule)) h
      rw [h1] at this; simp at this
    | some tblA =>
      rw [h1] at hfr
      dsimp only at hfr
      by_cases heps : "eps" ∈ firstOfSequence g fs rule
      · rw [if_pos heps] at hfr
        cases h2 : mlookupOpt fl nt with
        | none => rw [h2] at hfl; simp at hfl
        | some follows =>
          rw [h2] at hfr
          dsimp only at hfr
          have hA : hasKey tblA nt = true := by
            rw [setMany_hasKey h1]; exact h
          have := setMany_isSome rule follows hA
          rw [hfr] at this; simp at this
      · rw [if_neg heps] at hfr
        simp at hfr

theorem fillRule_hasKey {g : Grammar} {fs fl : SMap} {nt : Sym}
    {rule : List Sym} {tbl tbl2 : PTable}
    (h : fillRule g fs fl nt rule tbl = some tbl2) (k : Sym) :
    hasKey tbl2 k = hasKey tbl k := by
  simp only [fillRule] at h
  cases h1 : setMany nt rule (dropEps (firstOfSequence g fs rule)) tbl with
  | none => rw [h1] at h; simp at h
  | some tblA =>
    rw [h1] at h
    dsimp only at h
    by_cases heps : "eps" ∈ firstOfSequence g fs rule
    · rw [if_pos heps] at h
      cases h2 : mlookupOpt fl nt with
      | none => rw [h2] at h; simp at h
      | some follows =>
        rw [h2] at h
        rw [setMany_hasKey h, setMany_hasKey h1]
    · rw [if_neg heps] at h
      cases h
      rw [setMany_hasKey h1]

theorem fillRules_getCell {g : Grammar} {fs fl : SMap} {nt : Sym}
    {rs : List (List Sym)} {tbl tbl2 : PTable}
    (h : fillRules g fs fl nt rs tbl = some tbl2) (nt2 t2 : Sym) :
    getCell tbl2 nt2 t2 =
      if nt2 = nt then lastClaim g fs fl nt rs t2 (getCell tbl nt2 t2)
      else getCell tbl nt2 t2 := by
  induction rs generalizing tbl tbl2 with
  | nil =>
    simp only [fillRules, Option.some.injEq] at h
    subst h
    simp [lastClaim_nil]
  | cons r rs ih =>
    cases h1 : fillRule g fs fl nt r tbl with
    | none => simp [fillRules, h1] at h
    | some tblA =>
      simp only [fillRules, h1] at h
      rw [ih h, fillRule_getCell h1 nt2 t2, lastClaim_cons]
      by_cases hn : nt2 = nt
      · subst hn
        by_cases hc : cellClaimed g fs fl nt2 r t2 <;> simp [hc]
      · simp [hn]

theorem fillRules_isSome {g : Grammar} {fs fl : SMap} {nt : Sym}
    (rs : List (List Sym)) {tbl : PTable} (h : hasKey tbl nt = true)
    (hfl : (mlookupOpt fl nt).isSome) :
    (fillRules g fs fl nt rs tbl).isSome := by
  induction rs generalizing tbl with
  | nil => simp [fillRules]
  | cons r rs ih =>
    cases h1 : fillRule g fs fl nt r tbl with
    | none =>
      have := @fillRule_isSome g fs fl nt r tbl h hfl
      rw [h1] at this; simp at this
    | some tblA =>
      simp only [fillRules, h1]
      exact ih (by rw [fillRule_hasKey h1]; exact h)

theorem fillRules_hasKey {g : Grammar} {fs fl : SMap} {nt : Sym}
    {rs : List (List Sym)} {tbl tbl2 : PTable}
    (h : fillRules g fs fl nt rs tbl = some tbl2) (k : Sym) :
    hasKey tbl2 k = hasKey tbl k := by
  induction rs generalizing tbl tbl2 with
  | nil => simp only [fillRules, Option.some.injEq] at h; subst h; rfl
  | cons r rs ih =>
    cases h1 : fillRule g fs fl nt r tbl with
    | none => simp [fillRules, h1] at h
    | some tblA =>
      simp only [fillRules, h1] at h
      rw [ih h, fillRule_hasKey h1]

theorem fillAll_getCell {g : Grammar} {fs fl : SMap}
    {ps : List (Sym × List (List Sym))} {tbl tbl2 : PTable}
    (h : fillAll g fs fl ps tbl = some tbl2) (nt2 t2 : Sym) :
    getCell tbl2 nt2 t2 = tableSpec g fs fl ps nt2 t2 (getCell tbl nt2 t2) := by
  induction ps generalizing tbl tbl2 with
  | nil =>
    simp only [fillAll, Option.some.injEq] at h
    subst h
    simp [tableSpec_nil]
  | cons p ps ih =>
    obtain ⟨nt, rules⟩ := p
    cases h1 : fillRules g fs fl nt rules tbl with
    | none => simp [fillAll, h1] at h
    | some tblA =>
      simp only [fillAll, h1] at h
      rw [ih h, tableSpec_cons, fillRules_getCell h1 nt2 t2]
      by_cases hn : nt = nt2
      · subst hn
        simp
      · have hn2 : ¬ nt2 = nt := fun hh => hn hh.symm
        simp [hn, hn2]

theorem fillAll_isSome {g : Grammar} {fs fl : SMap}
    (ps : List (Sym × List (List Sym))) {tbl : PTable}
    (h : ∀ p ∈ ps, hasKey tbl p.1 = true)
    (hfl : ∀ p ∈ ps, (mlookupOpt fl p.1).isSome) :
    (fillAll g fs fl ps tbl).isSome := by
  induction ps generalizing tbl with
  | nil => simp [fillAll]
  | cons p ps ih =>
    obtain ⟨nt, rules⟩ := p
    cases h1 : fillRules g fs fl nt rules tbl with
    | none =>
      have := @fillRules_isSome g fs fl nt rules tbl
        (h _ (List.mem_cons_self _ _)) (hfl _ (List.mem_cons_self _ _))
      rw [h1] at this; simp at this
    | some tblA =>
      simp only [fillAll, h1]
      refine ih (fun q hq => ?_) (fun q hq => hfl q (List.mem_cons_of_mem _ hq))
      rw [fillRules_hasKey h1]
      exact h q (List.mem_cons_of_mem _ hq)

theorem getCell_mapEmpty (l : List Sym) (nt t : Sym) :
    getCell (l.map (fun x => (x, ([] : Row)))) nt t = none := by
  induction l with
  | nil => rfl
  | cons x xs ih =>
    simp only [List.map, getCell]
    by_cases hx : x = nt
    · simp [hx, rowGet]
    · simp [hx, ih]

theorem getCell_initTable (g : Grammar) (nt t : Sym) :
    getCell (initTable g) nt t = none :=
  getCell_mapEmpty g.non_terminals nt t

theorem hasKey_mapEmpty {l : List Sym} {k : Sym} (h : k ∈ l) :
    hasKey (l.map (fun x => (x, ([] : Row)))) k = true := by
  induction l with
  | nil => simp at h
  | cons x xs ih =>
    simp only [List.map, hasKey]
    by_cases hx : x = k
    · simp [hx]
    · simp only [if_neg hx]
      rcases List.mem_cons.mp h with h | h
      · exact absurd h.symm hx
      · exact ih h

theorem hasKey_initTable {g : Grammar} {k : Sym} (h : k ∈ g.non_terminals) :
    hasKey (initTable g) k = true :=
  hasKey_mapEmpty h

theorem lastClaim_eq_some {g : Grammar} {fs fl : SMap} {nt t : Sym}
    {rs : List (List Sym)} {acc : Option (List Sym)} {r : List Sym}
    (h : lastClaim g fs fl nt rs t acc = some r) :
    (r ∈ rs ∧ cellClaimed g fs fl nt r t) ∨ acc = some r := by
  induction rs generalizing acc with
  | nil => exact Or.inr h
  | cons x rs ih =>
    rw [lastClaim_cons] at h
    rcases ih h with ⟨hm, hc⟩ | hacc
    · exact Or.inl ⟨List.mem_cons_of_mem _ hm, hc⟩
    · by_cases hc : cellClaimed g fs fl nt x t
      · rw [if_pos hc] at hacc
        cases hacc
        exact Or.inl ⟨List.mem_cons_self _ _, hc⟩
      · rw [if_neg hc] at hacc
        exact Or.inr hacc

theorem lastClaim_eq_none {g : Grammar} {fs fl : SMap} {nt t : Sym}
    (rs : List (List Sym)) (acc : Option (List Sym)) :
    lastClaim g fs fl nt rs t acc = none ↔
      acc = none ∧ ∀ r ∈ rs, ¬ cellClaimed g fs fl nt r t := by
  induction rs generalizing acc with
  | nil => simp [lastClaim_nil]
  | cons x rs ih =>
    rw [lastClaim_cons, ih]
    by_cases hc : cellClaimed g fs fl nt x t
    · simp [hc]
    · simp only [if_neg hc]
      constructor
      · rintro ⟨ha, hr⟩
        exact ⟨ha, fun r hm => by
          rcases List.mem_cons.mp hm with h | h
          · exact h ▸ hc
          · exact hr r h⟩
      · rintro ⟨ha, hr⟩
        exact ⟨ha, fun r hm => hr r (List.mem_cons_of_mem _ hm)⟩

theorem tableSpec_eq_some {g : Grammar} {fs fl : SMap} {nt t : Sym}
    {ps : List (Sym × List (List Sym))} {acc : Option (List Sym)}
    {r : List Sym} (h : tableSpec g fs fl ps nt t acc = some r) :
    (∃ p ∈ ps, p.1 = nt ∧ r ∈ p.2 ∧ cellClaimed g fs fl nt r t) ∨
      acc = some r := by
  induction ps generalizing acc with
  | nil => exact Or.inr h
  | cons p ps ih =>
    rw [tableSpec_cons] at h
    rcases ih h with ⟨q, hq, hqe, hm, hc⟩ | hacc
    · exact Or.inl ⟨q, List.mem_cons_of_mem _ hq, hqe, hm, hc⟩
    · by_cases hp : p.1 = nt
      · rw [if_pos hp] at hacc
        rcases lastClaim_eq_some hacc with ⟨hm, hc⟩ | hacc2
        · exact Or.inl ⟨p, List.mem_cons_self _ _, hp, hm, hc⟩
        · exact Or.inr hacc2
      · rw [if_neg hp] at hacc
        exact Or.inr hacc

theorem tableSpec_eq_none {g : Grammar} {fs fl : SMap} {nt t : Sym}
    (ps : List (Sym × List (List Sym))) (acc : Option (List Sym)) :
    tableSpec g fs fl ps nt t acc = none ↔
      acc = none ∧
        ∀ p ∈ ps, p.1 = nt → ∀ r ∈ p.2, ¬ cellClaimed g fs fl nt r t := by
  induction ps generalizing acc with
  | nil => simp [tableSpec_nil]
  | cons p ps ih =>
    rw [tableSpec_cons, ih]
    by_cases hp : p.1 = nt
    · simp only [if_pos hp, lastClaim_eq_none]
      constructor
      · rintro ⟨⟨ha, hr⟩, hrest⟩
        refine ⟨ha, fun q hq hqe => ?_⟩
        rcases List.mem_cons.mp hq with h | h
        · exact h ▸ hr
        · exact hrest q h hqe
      · rintro ⟨ha, hall⟩
        exact ⟨⟨ha, hall p (List.mem_cons_self _ _) hp⟩,
          fun q hq hqe => hall q (List.mem_cons_of_mem _ hq) hqe⟩
    · simp only [if_neg hp]
      constructor
      · rintro ⟨ha, hrest⟩
        refine ⟨ha, fun q hq hqe => ?_⟩
        rcases List.mem_cons.mp hq with h | h
        · exact absurd (h ▸ hqe) hp
        · exact hrest q h hqe
      · rintro ⟨ha, hall⟩
        exact ⟨ha, fun q hq hqe => hall q (List.mem_cons_of_mem _ hq) hqe⟩

/-- FIRST sets of `chainG` after the first full pass of the loop. -/
def chainM1 : SMap := [("A", []), ("B", []), ("C", ["d"])]

/-- FIRST sets of `chainG` when the loop exits. -/
def chainM2 : SMap := [("A", []), ("B", ["d"]), ("C", ["d"])]

theorem chain_pass1 :
    firstPass chainG chainG.productions (initSets chainG, false) = (chainM1, true) := by
  decide

theorem chain_pass2 :
    firstPass chainG chainG.productions (chainM1, false) = (chainM2, false) := by
  decide

theorem chain_loop (fuel : Nat) :
    firstLoop chainG (fuel + 2) (initSets chainG) = chainM2 := by
  have h1 : firstLoop chainG (fuel + 2) (initSets chainG)
      = firstLoop chainG (fuel + 1) chainM1 := by
    simp only [firstLoop, chain_pass1]
  have h2 : firstLoop chainG (fuel + 1) chainM1 = chainM2 := by
    simp only [firstLoop, chain_pass2]
  rw [h1, h2]

theorem chain_derives : Derives chainG ["A"] ["d"] := by
  have s1 : DStep chainG ["A"] ["B"] := by
    have := @DStep.rewrite chainG "A" [["B"]] ["B"] [] []
      (by decide) (by decide)
    simpa [ruleRhs] using this
  have s2 : DStep chainG ["B"] ["C"] := by
    have := @DStep.rewrite chainG "B" [["C"]] ["C"] [] []
      (by decide) (by decide)
    simpa [ruleRhs] using this
  have s3 : DStep chainG ["C"] ["d"] := by
    have := @DStep.rewrite chainG "C" [["d"]] ["d"] [] []
      (by decide) (by decide)
    simpa [ruleRhs] using this
  exact .head s1 (.head s2 (.head s3 .refl))

/-- C1: the spec requires that for ε-free grammars the fixed-point loop keeps
re-visiting all productions until no FIRST set grows, so that for the chain
grammar `A -> B`, `B -> C`, `C -> d` the terminal `d` (which starts a
derivation of `A`) ends up in FIRST(A).  The code contradicts this: growth of
a FIRST set through the non-terminal branch never sets `changed` (the
`before_len` variable at line 136 is computed but never read), so for every
fuel the loop exits with FIRST(A) empty even though `A` derives `d`. -/
theorem c1_first_chain_propagation_lost :
    (∀ fuel : Nat, mlookup (computeFirstSets chainG (fuel + 2)) "A" = []) ∧
    Derives chainG ["A"] ["d"] ∧
    "d" ∈ chainG.terminals ∧
    NoEpsProductions chainG := by
  refine ⟨fun fuel => ?_, chain_derives, by decide, by decide⟩
  rw [computeFirstSets, chain_loop]
  decide

/-!
## C4/C5: the filled table holds, in every cell, the *last* claiming rule
-/

theorem lastClaim_append (g : Grammar) (fs fl : SMap) (nt t : Sym)
    (xs ys : List (List Sym)) (acc : Option (List Sym)) :
    lastClaim g fs fl nt (xs ++ ys) t acc =
      lastClaim g fs fl nt ys t (lastClaim g fs fl nt xs t acc) := by
  unfold lastClaim
  rw [List.foldl_append]

theorem lastClaim_no_claim {g : Grammar} {fs fl : SMap} {nt t : Sym}
    {rs : List (List Sym)} (h : ∀ r ∈ rs, ¬ cellClaimed g fs fl nt r t)
    (acc : Option (List Sym)) : lastClaim g fs fl nt rs t acc = acc := by
  induction rs generalizing acc with
  | nil => rfl
  | cons x rs ih =>
    rw [lastClaim_cons, if_neg (h x (List.mem_cons_self _ _))]
    exact ih (fun r hr => h r (List.mem_cons_of_mem _ hr)) acc

theorem tableSpec_skip {g : Grammar} {fs fl : SMap} {nt t : Sym}
    {ps : List (Sym × List (List Sym))} (h : ∀ p ∈ ps, p.1 ≠ nt)
    (acc : Option (List Sym)) : tableSpec g fs fl ps nt t acc = acc := by
  induction ps generalizing acc with
  | nil => rfl
  | cons p ps ih =>
    rw [tableSpec_cons, if_neg (h p (List.mem_cons_self _ _))]
    exact ih (fun q hq => h q (List.mem_cons_of_mem _ hq)) acc

theorem tableSpec_unique {g : Grammar} {fs fl : SMap} {nt t : Sym}
    {ps : List (Sym × List (List Sym))} {rules : List (List Sym)}
    (hnodup : (ps.map Prod.fst).Nodup) (hmem : (nt, rules) ∈ ps)
    (acc : Option (List Sym)) :
    tableSpec g fs fl ps nt t acc = lastClaim g fs fl nt rules t acc := by
  induction ps generalizing acc with
  | nil => simp at hmem
  | cons p ps ih =>
    rw [List.map_cons, List.nodup_cons] at hnodup
    rcases List.mem_cons.mp hmem with h | h
    · subst h
      rw [tableSpec_cons]
      simp only [if_pos rfl]
      refine tableSpec_skip (fun q hq hqe => hnodup.1 ?_) _
      have hm : q.1 ∈ ps.map Prod.fst := List.mem_map_of_mem Prod.fst hq
      rw [hqe] at hm
      exact hm
    · have hne : p.1 ≠ nt := by
        intro hh
        have hm : (nt, rules).1 ∈ ps.map Prod.fst :=
          List.mem_map_of_mem Prod.fst h
        rw [← hh] at hm
        exact hnodup.1 hm
      rw [tableSpec_cons, if_neg hne]
      exact ih hnodup.2 h acc

/-- C4 amended: after table construction, cell `(A, t)` holds the value of a
left fold over the declared productions in which each production claiming the
cell (`t ∈ FIRST(α) − {ε}`, or `ε ∈ FIRST(α)` and `t ∈ FOLLOW(A)`)
overwrites the previous value — so the cell is filled iff some production
claims it, a filled cell holds the right-hand side of the *last* claiming
production (not necessarily of every claiming production), and no other
cells are filled. -/
theorem c4_amended_table_characterisation (g : Grammar) (fs fl : SMap)
    (tbl2 : PTable)
    (h : fillAll g fs fl g.productions (initTable g) = some tbl2)
    (nt t : Sym) :
    getCell tbl2 nt t = tableSpec g fs fl g.productions nt t none ∧
    (getCell tbl2 nt t = none ↔
      ∀ p ∈ g.productions, p.1 = nt → ∀ r ∈ p.2,
        ¬ cellClaimed g fs fl nt r t) ∧
    (∀ r, getCell tbl2 nt t = some r →
      ∃ p ∈ g.productions, p.1 = nt ∧ r ∈ p.2 ∧
        cellClaimed g fs fl nt r t) := by
  have e := fillAll_getCell h nt t
  rw [getCell_initTable] at e
  refine ⟨e, ?_, ?_⟩
  · rw [e, tableSpec_eq_none]
    simp
  · intro r hr
    rw [e] at hr
    rcases tableSpec_eq_some hr with ⟨p, hp, hpe, hm, hc⟩ | habs
    · exact ⟨p, hp, hpe, hm, hc⟩
    · simp at habs

/-- The conflict grammar of scenario D: `A -> a | a b`, both alternatives
claiming cell `(A, a)`. -/
def conflictG : Grammar :=
  { start_symbol := some "A"
    non_terminals := ["A"]
    terminals := ["a", "b"]
    productions := [("A", [["a"], ["a", "b"]])] }

/-- FIRST sets the pipeline computes for `conflictG`. -/
def conflictFs : SMap := [("A", ["a"])]

/-- FOLLOW sets the pipeline computes for `conflictG`. -/
def conflictFl : SMap := [("A", ["$"])]

/-- Witness for `c4_amended_table_characterisation` at the conflict
grammar's cell `(A, a)`. -/
theorem c4_amended_table_characterisation_witness :
    getCell [("A", [("a", ["a", "b"])])] "A" "a" =
      tableSpec conflictG conflictFs conflictFl conflictG.productions
        "A" "a" none ∧
    (getCell [("A", [("a", ["a", "b"])])] "A" "a" = none ↔
      ∀ p ∈ conflictG.productions, p.1 = "A" → ∀ r ∈ p.2,
        ¬ cellClaimed conflictG conflictFs conflictFl "A" r "a") ∧
    (∀ r, getCell [("A", [("a", ["a", "b"])])] "A" "a" = some r →
      ∃ p ∈ conflictG.productions, p.1 = "A" ∧ r ∈ p.2 ∧
        cellClaimed conflictG conflictFs conflictFl "A" r "a") :=
  c4_amended_table_characterisation conflictG conflictFs conflictFl
    [("A", [("a", ["a", "b"])])] (by decide) "A" "a"

/-- C4 counterexample: the claim `table[A, t] = α for every production
A → α with t ∈ FIRST(α) − {ε}` fails on grammars where two productions claim
the same cell.  For `A -> a | a b` (with the FIRST/FOLLOW tables the
pipeline itself computes), `a ∈ FIRST([a]) − {ε}` for the production
`A -> a`, yet the constructed cell `(A, a)` holds the later alternative
`a b`, not `a`; `build_parse_table` produces exactly this table. -/
theorem c4_counterexample_conflict_overwrites :
    buildParseTable conflictG 10 = some [("A", [("a", ["a", "b"])])] ∧
    fillAll conflictG conflictFs conflictFl conflictG.productions
      (initTable conflictG) = some [("A", [("a", ["a", "b"])])] ∧
    ("A", [["a"], ["a", "b"]]) ∈ conflictG.productions ∧
    ["a"] ∈ [["a"], ["a", "b"]] ∧
    "a" ∈ firstOfSequence conflictG conflictFs ["a"] ∧
    ("a" : Sym) ≠ "eps" ∧
    getCell [("A", [("a", ["a", "b"])])] "A" "a" ≠ some ["a"] :=
  ⟨by decide, by decide, by decide, by decide, by decide, by decide, by decide⟩

/-- C5: table construction never raises on a conflicting cell (it returns a
table for every well-keyed grammar), and when a production claims a cell
that no later-declared alternative of the same non-terminal claims, the
cell ends up holding exactly that production — i.e. the later-declared
claimant silently overwrites all earlier ones. -/
theorem c5_conflict_silent_overwrite (g : Grammar) (fs fl : SMap)
    (hk : ∀ p ∈ g.productions, p.1 ∈ g.non_terminals)
    (hfl : ∀ p ∈ g.productions, (mlookupOpt fl p.1).isSome)
    (hnodup : (g.productions.map Prod.fst).Nodup) :
    ∃ tbl2, fillAll g fs fl g.productions (initTable g) = some tbl2 ∧
      ∀ nt pre r post t, (nt, pre ++ r :: post) ∈ g.productions →
        cellClaimed g fs fl nt r t →
        (∀ r2 ∈ post, ¬ cellClaimed g fs fl nt r2 t) →
        getCell tbl2 nt t = some r := by
  have hsome := @fillAll_isSome g fs fl g.productions (initTable g)
    (fun p hp => hasKey_initTable (hk p hp)) hfl
  cases hfa : fillAll g fs fl g.productions (initTable g) with
  | none => rw [hfa] at hsome; simp at hsome
  | some tbl2 =>
    refine ⟨tbl2, rfl, ?_⟩
    intro nt pre r post t hmem hc hpost
    have e := fillAll_getCell hfa nt t
    rw [getCell_initTable] at e
    rw [e, tableSpec_unique hnodup hmem, lastClaim_append, lastClaim_cons,
      if_pos hc]
    exact lastClaim_no_claim hpost _

/-- Witness for `c5_conflict_silent_overwrite` at the conflict grammar. -/
theorem c5_conflict_silent_overwrite_witness :
    ∃ tbl2, fillAll conflictG conflictFs conflictFl conflictG.productions
        (initTable conflictG) = some tbl2 ∧
      ∀ nt pre r post t, (nt, pre ++ r :: post) ∈ conflictG.productions →
        cellClaimed conflictG conflictFs conflictFl nt r t →
        (∀ r2 ∈ post, ¬ cellClaimed conflictG conflictFs conflictFl nt r2 t) →
        getCell tbl2 nt t = some r :=
  c5_conflict_silent_overwrite conflictG conflictFs conflictFl
    (by decide) (by decide) (by decide)

/-!
## Parse trees and `ParseTreeNode.rename_symbol` (lines 6-30)

A node holds a symbol and an ordered list of children.  `rename_symbol`
walks the tree depth-first pre-order (node first, then children left to
right) with a shared `replaced` counter, renaming while `count is None or
replaced < count`.
-/

inductive PTree where
  | node (symbol : Sym) (children : List PTree)
deriving Repr

/-- `count is None or replaced < count`. -/
def renameCond (count : Option Nat) (replaced : Nat) : Bool :=
  match count with
  | none => true
  | some c => replaced < c

mutual
/-- The closure `_rename` of `rename_symbol`, with the `replaced` counter
threaded explicitly. -/
def renameAux (old new : Sym) (count : Option Nat) : PTree → Nat → PTree × Nat
  | .node s cs, r =>
    let p := if s = old ∧ renameCond count r = true then (new, r + 1) else (s, r)
    let q := renameList old new count cs p.2
    (.node p.1 q.1, q.2)
def renameList (old new : Sym) (count : Option Nat) :
    List PTree → Nat → List PTree × Nat
  | [], r => ([], r)
  | t :: ts, r =>
    let p := renameAux old new count t r
    let q := renameList old new count ts p.2
    (p.1 :: q.1, q.2)
end

/-- `ParseTreeNode.rename_symbol(old, new, count)` as a pure function from
the tree before the call to the tree after it. -/
def PTree.rename_symbol (t : PTree) (old new : Sym) (count : Option Nat) :
    PTree :=
  (renameAux old new count t 0).1

mutual
/-- Depth-first pre-order listing of the node labels (parent before
children, siblings left to right) — the visit order of `_rename`. -/
def preorder : PTree → List Sym
  | .node s cs => s :: preorderList cs
def preorderList : List PTree → List Sym
  | [] => []
  | t :: ts => preorder t ++ preorderList ts
end

mutual
/-- The label-free skeleton of a tree. -/
def shape : PTree → PTree
  | .node _ cs => .node "" (shapeList cs)
def shapeList : List PTree → List PTree
  | [] => []
  | t :: ts => shape t :: shapeList ts
end

/-- `renameAux` restricted to the flat pre-order list of labels. -/
def listRenameAux (old new : Sym) (count : Option Nat) :
    List Sym → Nat → List Sym × Nat
  | [], r => ([], r)
  | s :: ss, r =>
    let p := if s = old ∧ renameCond count r = true then (new, r + 1) else (s, r)
    let q := listRenameAux old new count ss p.2
    (p.1 :: q.1, q.2)

/-- Replace the first `k` occurrences of `old` by `new`. -/
def replaceFirstK (old new : Sym) : Nat → List Sym → List Sym
  | _, [] => []
  | 0, xs => xs
  | k + 1, s :: ss =>
    if s = old then new :: replaceFirstK old new k ss
    else s :: replaceFirstK old new (k + 1) ss

theorem ptree_mutual_ind {motive : PTree → Prop} {motiveL : List PTree → Prop}
    (hnode : ∀ s cs, motiveL cs → motive (.node s cs))
    (hnil : motiveL [])
    (hcons : ∀ t ts, motive t → motiveL ts → motiveL (t :: ts)) :
    ∀ t, motive t :=
  fun t => PTree.rec hnode hnil hcons t

theorem ptree_mutual_ind_list {motive : PTree → Prop}
    {motiveL : List PTree → Prop}
    (hnode : ∀ s cs, motiveL cs → motive (.node s cs))
    (hnil : motiveL [])
    (hcons : ∀ t ts, motive t → motiveL ts → motiveL (t :: ts)) :
    ∀ ts, motiveL ts := by
  intro ts
  induction ts with
  | nil => exact hnil
  | cons t ts ih =>
    exact hcons t ts (ptree_mutual_ind hnode hnil hcons t) ih

theorem listRenameAux_append (old new : Sym) (count : Option Nat)
    (xs ys : List Sym) : ∀ r,
    listRenameAux old new count (xs ++ ys) r =
      ((listRenameAux old new count xs r).1 ++
        (listRenameAux old new count ys (listRenameAux old new count xs r).2).1,
       (listRenameAux old new count ys (listRenameAux old new count xs r).2).2)
    := by
  induction xs with
  | nil => intro r; simp [listRenameAux]
  | cons s ss ih =>
    intro r
    simp only [List.cons_append, listRenameAux, List.append_eq, ih]

theorem renameAux_preorder (old new : Sym) (count : Option Nat) :
    ∀ t : PTree, ∀ r : Nat,
      preorder (renameAux old new count t r).1 =
        (listRenameAux old new count (preorder t) r).1 ∧
      (renameAux old new count t r).2 =
        (listRenameAux old new count (preorder t) r).2 := by
  refine @ptree_mutual_ind _ (fun ts => ∀ r : Nat,
    preorderList (renameList old new count ts r).1 =
      (listRenameAux old new count (preorderList ts) r).1 ∧
    (renameList old new count ts r).2 =
      (listRenameAux old new count (preorderList ts) r).2) ?_ ?_ ?_
  · intro s cs ihL r
    simp only [renameAux, preorder, listRenameAux]
    rcases ihL (if s = old ∧ renameCond count r = true then (new, r + 1)
      else (s, r)).2 with ⟨h1, h2⟩
    exact ⟨by rw [h1], by rw [h2]⟩
  · intro r
    simp [renameList, preorderList, listRenameAux]
  · intro t ts iht ihL r
    simp only [renameList, preorderList, listRenameAux_append]
    rcases iht r with ⟨ht1, ht2⟩
    rcases ihL ((listRenameAux old new count (preorder t) r).2) with ⟨hl1, hl2⟩
    constructor
    · rw [ht1, ht2, hl1]
    · rw [ht2, hl2]

theorem renameAux_shape (old new : Sym) (count : Option Nat) :
    ∀ t : PTree, ∀ r : Nat,
      shape (renameAux old new count t r).1 = shape t := by
  refine @ptree_mutual_ind _ (fun ts => ∀ r : Nat,
    shapeList (renameList old new count ts r).1 = shapeList ts) ?_ ?_ ?_
  · intro s cs ihL r
    simp only [renameAux, shape]
    rw [ihL]
  · intro r
    simp [renameList, shapeList]
  · intro t ts iht ihL r
    simp only [renameList, shapeList]
    rw [iht, ihL]

theorem renameAux_zero (old new : Sym) :
    ∀ t : PTree, ∀ r : Nat, renameAux old new (some 0) t r = (t, r) := by
  refine @ptree_mutual_ind _ (fun ts => ∀ r : Nat,
    renameList old new (some 0) ts r = (ts, r)) ?_ ?_ ?_
  · intro s cs ihL r
    have hc : ¬ (s = old ∧ renameCond (some 0) r = true) := by
      rintro ⟨-, hr⟩
      simp [renameCond] at hr
    simp only [renameAux, if_neg hc, ihL]
  · intro r
    simp [renameList]
  · intro t ts iht ihL r
    simp only [renameList, iht, ihL]

theorem listRenameAux_none (old new : Sym) (xs : List Sym) : ∀ r,
    (listRenameAux old new none xs r).1 =
      xs.map (fun s => if s = old then new else s) := by
  induction xs with
  | nil => intro r; simp [listRenameAux]
  | cons s ss ih =>
    intro r
    by_cases hs : s = old
    · simp only [listRenameAux, renameCond, hs, and_true, if_pos rfl,
        List.map, if_pos hs]
      rw [ih]
      simp
    · have hc : ¬ (s = old ∧ renameCond none r = true) := fun hh => hs hh.1
      simp only [listRenameAux, if_neg hc, List.map, if_neg hs]
      rw [ih]

theorem not_mem_map_subst {old new : Sym} (h : old ≠ new) (xs : List Sym) :
    old ∉ xs.map (fun s => if s = old then new else s) := by
  intro hmem
  rcases List.mem_map.mp hmem with ⟨s, -, hs⟩
  by_cases hso : s = old
  · rw [if_pos hso] at hs
    exact h hs.symm
  · rw [if_neg hso] at hs
    exact hso hs

theorem replaceFirstK_zero (old new : Sym) (xs : List Sym) :
    replaceFirstK old new 0 xs = xs := by
  cases xs <;> rfl

theorem listRenameAux_some (old new : Sym) (c : Nat) (xs : List Sym) : ∀ r,
    (listRenameAux old new (some c) xs r).1 =
      replaceFirstK old new (c - r) xs := by
  induction xs with
  | nil => intro r; simp [listRenameAux, replaceFirstK]
  | cons s ss ih =>
    intro r
    by_cases hs : s = old
    · by_cases hr : r < c
      · have hc : s = old ∧ renameCond (some c) r = true :=
          ⟨hs, by simp [renameCond, hr]⟩
        simp only [listRenameAux, if_pos hc]
        rw [ih]
        have hcr : c - r = (c - (r + 1)) + 1 := by omega
        rw [hcr]
        simp [replaceFirstK, hs]
      · have hc : ¬ (s = old ∧ renameCond (some c) r = true) := by
          rintro ⟨-, hh⟩
          simp [renameCond] at hh
          omega
        have hcr : c - r = 0 := by omega
        simp only [listRenameAux, if_neg hc]
        rw [ih]
        rw [hcr, replaceFirstK_zero, replaceFirstK_zero]
    · have hc : ¬ (s = old ∧ renameCond (some c) r = true) := fun hh => hs hh.1
      simp only [listRenameAux, if_neg hc]
      rw [ih]
      rcases Nat.eq_zero_or_pos (c - r) with hcr | hcr
      · rw [hcr, replaceFirstK_zero, replaceFirstK_zero]
      · obtain ⟨k, hk⟩ : ∃ k, c - r = k + 1 := ⟨c - r - 1, by omega⟩
        rw [hk]
        simp [replaceFirstK, hs]

/-- C8: renaming behaves as claimed on every tree, for labels `old ≠ new`:
with limit 0 the tree is unchanged; with no limit every node labelled `old`
is relabelled (in the pre-order listing every label is substituted, so no
`old` remains) and the tree shape is untouched; with a positive limit `k`
exactly the first `min(k, occurrences)` nodes in depth-first pre-order
(parent before children, left-to-right siblings) are renamed — the
pre-order listing equals the first-`k`-occurrences replacement of the
original listing. -/
theorem c8_rename_symbol_spec (t : PTree) (old new : Sym) (h : old ≠ new)
    (k : Nat) :
    t.rename_symbol old new (some 0) = t ∧
    (old ∉ preorder (t.rename_symbol old new none) ∧
      preorder (t.rename_symbol old new none) =
        (preorder t).map (fun s => if s = old then new else s) ∧
      shape (t.rename_symbol old new none) = shape t) ∧
    (preorder (t.rename_symbol old new (some k)) =
        replaceFirstK old new k (preorder t) ∧
      shape (t.rename_symbol old new (some k)) = shape t) := by
  unfold PTree.rename_symbol
  refine ⟨?_, ⟨?_, ?_, ?_⟩, ?_, ?_⟩
  · rw [renameAux_zero]
  · rw [(renameAux_preorder old new none t 0).1, listRenameAux_none]
    exact not_mem_map_subst h (preorder t)
  · rw [(renameAux_preorder old new none t 0).1, listRenameAux_none]
  · exact renameAux_shape old new none t 0
  · rw [(renameAux_preorder old new (some k) t 0).1, listRenameAux_some,
      Nat.sub_zero]
  · exact renameAux_shape old new (some k) t 0

/-- Witness for `c8_rename_symbol_spec` on a small concrete tree. -/
theorem c8_rename_symbol_spec_witness :
    (PTree.node "a" [.node "b" [], .node "a" [.node "a" []]]).rename_symbol
        "a" "x" (some 0) =
      PTree.node "a" [.node "b" [], .node "a" [.node "a" []]] ∧
    ("a" ∉ preorder ((PTree.node "a" [.node "b" [],
        .node "a" [.node "a" []]]).rename_symbol "a" "x" none) ∧
      preorder ((PTree.node "a" [.node "b" [],
          .node "a" [.node "a" []]]).rename_symbol "a" "x" none) =
        (preorder (PTree.node "a" [.node "b" [],
          .node "a" [.node "a" []]])).map
            (fun s => if s = "a" then "x" else s) ∧
      shape ((PTree.node "a" [.node "b" [],
          .node "a" [.node "a" []]]).rename_symbol "a" "x" none) =
        shape (PTree.node "a" [.node "b" [], .node "a" [.node "a" []]])) ∧
    (preorder ((PTree.node "a" [.node "b" [],
        .node "a" [.node "a" []]]).rename_symbol "a" "x" (some 2)) =
        replaceFirstK "a" "x" 2
          (preorder (PTree.node "a" [.node "b" [], .node "a" [.node "a" []]])) ∧
      shape ((PTree.node "a" [.node "b" [],
          .node "a" [.node "a" []]]).rename_symbol "a" "x" (some 2)) =
        shape (PTree.node "a" [.node "b" [], .node "a" [.node "a" []]])) :=
  c8_rename_symbol_spec
    (PTree.node "a" [.node "b" [], .node "a" [.node "a" []]]) "a" "x"
    (by decide) 2

/-!
## Lexer (`Lexer.__init__` lines 211-222, `Lexer.tokenize` lines 224-240)

`__init__` deletes every space from each pattern string
(`pattern.replace(" ", "")`) and compiles the patterns into one alternation
tried in declaration order; `tokenize` repeatedly matches that alternation
at the current position, appending only the winning group *name*
(`match.lastgroup`) — no literal text — skipping unmatched whitespace and
raising on any other unmatched character.

The regular-expression fragment actually used by the program is modelled
explicitly: escaped literals (`\+`), plain literal characters, character
classes of single characters and `lo-hi` ranges, and the `+` repeat
(greedy, with backtracking into the following pieces, as Python's `re`
backtracks).  Patterns outside the fragment, and the patterns Python's
`re.compile` rejects (dangling backslash, unterminated or empty class,
reversed range), compile to `none`.  The recursions are structural over an
explicit fuel so that every function evaluates inside the kernel; the
wrappers supply fuel that is provably sufficient (each step consumes at
least one pattern or input character).
-/

inductive RItem where
  | ch (c : Char)
  | range (lo hi : Char)
deriving DecidableEq, Repr

inductive RAtom where
  | lit (c : Char)
  | cls (items : List RItem)
deriving DecidableEq, Repr

inductive RPiece where
  | once (a : RAtom)
  | rep1 (a : RAtom)
deriving DecidableEq, Repr

def itemAccepts : RItem → Char → Bool
  | .ch c, x => x = c
  | .range lo hi, x => lo ≤ x ∧ x ≤ hi

def atomAccepts : RAtom → Char → Bool
  | .lit c, x => x = c
  | .cls items, x => items.any (fun it => itemAccepts it x)

def classItemsOf : List Char → Option (List RItem)
  | [] => some []
  | a :: '-' :: b :: rest =>
    if a ≤ b then (classItemsOf rest).map (fun its => .range a b :: its)
    else none
  | a :: rest => (classItemsOf rest).map (fun its => .ch a :: its)

def metaChars : List Char :=
  ['(', ')', '|', '*', '?', '.', '^', '$', '\x7b', '\x7d', '[', ']', '\\', '+']

/-- Compile the body of a `[...]` character class; `none` models a
`re.error` (empty class, or a construct outside the modelled fragment). -/
def classOf (body : List Char) : Option RAtom :=
  if body = [] ∨ '\\' ∈ body ∨ '^' ∈ body then none
  else (classItemsOf body).map .cls

mutual
def ppParseF : Nat → List Char → Option (List RPiece)
  | 0, _ => none
  | fuel + 1, cs =>
    match cs with
    | [] => some []
    | '\\' :: [] => none
    | '\\' :: c :: rest => ppContF fuel (.lit c) rest
    | '[' :: rest =>
      match rest.dropWhile (fun c => c ≠ ']') with
      | [] => none
      | _ :: rest3 =>
        match classOf (rest.takeWhile (fun c => c ≠ ']')) with
        | none => none
        | some a => ppContF fuel a rest3
    | c :: rest =>
      if c ∈ metaChars then none
      else ppContF fuel (.lit c) rest
def ppContF : Nat → RAtom → List Char → Option (List RPiece)
  | 0, _, _ => none
  | fuel + 1, a, cs =>
    match cs with
    | '+' :: rest => (ppParseF fuel rest).map (fun ps => .rep1 a :: ps)
    | rest => (ppParseF fuel rest).map (fun ps => .once a :: ps)
end

/-- Longest run of characters accepted by `a` — the greedy extent of `a+`. -/
def runLen (a : RAtom) : List Char → Nat
  | [] => 0
  | c :: cs => if atomAccepts a c then runLen a cs + 1 else 0

mutual
/-- Match a piece sequence at the head of `cs`, returning the number of
consumed characters. -/
def matchPiecesF : Nat → List RPiece → List Char → Option Nat
  | 0, _, _ => none
  | fuel + 1, ps, cs =>
    match ps with
    | [] => some 0
    | .once a :: ps2 =>
      match cs with
      | [] => none
      | c :: cs2 =>
        if atomAccepts a c then (matchPiecesF fuel ps2 cs2).map (fun n => n + 1)
        else none
    | .rep1 a :: ps2 => tryRepF fuel a ps2 cs (runLen a cs)
/-- `a+` followed by `ps`: try the repeat counts greedily from `k` down to
1, backtracking like Python's `re`. -/
def tryRepF : Nat → RAtom → List RPiece → List Char → Nat → Option Nat
  | 0, _, _, _, _ => none
  | _ + 1, _, _, _, 0 => none
  | fuel + 1, a, ps, cs, k + 1 =>
    match matchPiecesF fuel ps (cs.drop (k + 1)) with
    | some n => some (k + 1 + n)
    | none => tryRepF fuel a ps cs k
end

/-- Fuel that always suffices for `matchPiecesF`: every recursive call
either drops a piece or decreases the tried repeat count, which starts at
most at the input length. -/
def matchFuel (ps : List RPiece) (cs : List Char) : Nat :=
  (ps.length + 1) * (cs.length + 2) + 1

def matchPieces (ps : List RPiece) (cs : List Char) : Option Nat :=
  matchPiecesF (matchFuel ps cs) ps cs

/-- `self.master_pattern.match(text, pos)`: the alternation of the rules in
declaration order — the first rule whose pattern matches wins. -/
def masterMatch (rules : List (Sym × List RPiece)) (cs : List Char) :
    Option (Sym × Nat) :=
  rules.findSome? (fun p => (matchPieces p.2 cs).map (fun n => (p.1, n)))

/-- `pattern.replace(" ", "")` of `Lexer.__init__` (line 220). -/
def stripSpaces (s : String) : String :=
  String.mk (s.toList.filter (fun c => c ≠ ' '))

/-- Compile one lexical pattern the way `Lexer.__init__` does: spaces
deleted first, then handed to the regex compiler. -/
def compileLexPattern (p : String) : Option (List RPiece) :=
  ppParseF (2 * (stripSpaces p).toList.length + 2) (stripSpaces p).toList

/-- Compile all rules in declaration order; `none` models a `re.compile`
error in `Lexer.__init__`. -/
def compileRules : List (Sym × String) → Option (List (Sym × List RPiece))
  | [] => some []
  | (t, p) :: rest =>
    match compileLexPattern p, compileRules rest with
    | some rx, some rs => some ((t, rx) :: rs)
    | _, _ => none

/-- `str.isspace()` for the ASCII whitespace characters. -/
def isPySpace (c : Char) : Bool :=
  c = ' ' ∨ c = '\t' ∨ c = '\n' ∨ c = '\r' ∨ c = '\x0b' ∨ c = '\x0c'

inductive LexErr where
  | unexpected (pos : Nat) (c : Char)
deriving DecidableEq, Repr

/-- The `while pos < len(text)` loop of `Lexer.tokenize`: tokens are the
winning group names only.  `none` models non-termination: when the master
pattern matches zero characters the source loops forever (unreachable
here: every fragment piece consumes at least one character), and the fuel
of the wrapper below always suffices otherwise since every iteration
consumes at least one input character. -/
def tokenizeAuxF (rules : List (Sym × List RPiece)) :
    Nat → List Char → Nat → Option (Except LexErr (List Sym))
  | 0, _, _ => none
  | fuel + 1, cs, pos =>
    match cs with
    | [] => some (.ok [])
    | c :: cs2 =>
      match masterMatch rules (c :: cs2) with
      | some (t, n) =>
        if n = 0 then none
        else
          (tokenizeAuxF rules fuel ((c :: cs2).drop n) (pos + n)).map
            (fun r => match r with
              | .ok ts => .ok (t :: ts)
              | .error e => .error e)
      | none =>
        if isPySpace c then tokenizeAuxF rules fuel cs2 (pos + 1)
        else some (.error (.unexpected pos c))

/-- `Lexer(lexical_rules)` followed by `tokenize(text)`; `none` is a
compile error in `__init__` or a diverging tokenize loop. -/
def lexerTokenize (rules : List (Sym × String)) (text : String) :
    Option (Except LexErr (List Sym)) :=
  match compileRules rules with
  | none => none
  | some rs => tokenizeAuxF rs (text.toList.length + 1) text.toList 0

/-- The lexical rules of scenario C, in declaration order. -/
def scenCRules : List (Sym × String) := [("PLUS", "\\+"), ("ID", "[a-z]+")]

/-- C3 counterexample: the claim says each produced token is a
(terminal-kind, literal-text) pair carrying the matched text, so the token
streams of `"a+b"` and `"z+w"` would differ (literals `a`,`b` vs `z`,`w`).
The code appends only `match.lastgroup`: both inputs tokenize to the same
bare kind list `[ID, PLUS, ID]`, so no literal text is carried. -/
theorem c3_counterexample_no_literal_text :
    lexerTokenize scenCRules "a+b" = some (.ok ["ID", "PLUS", "ID"]) ∧
    lexerTokenize scenCRules "z+w" = some (.ok ["ID", "PLUS", "ID"]) ∧
    lexerTokenize scenCRules "a+b" = lexerTokenize scenCRules "z+w" :=
  ⟨rfl, rfl, rfl⟩

/-- C3 amended: tokenize produces the ordered sequence of terminal *kinds*
only; for the rules `{PLUS: "\+", ID: "[a-z]+"}` declared in that order and
input `"a+b"`, the result is exactly `[ID, PLUS, ID]`, with no literal text
attached to the tokens. -/
theorem c3_amended_tokenize_kinds_only :
    lexerTokenize scenCRules "a+b" = some (.ok ["ID", "PLUS", "ID"]) := rfl

/-!
## C10: spaces are deleted from lexical patterns before compilation
-/

def pieceAtom : RPiece → RAtom
  | .once a => a
  | .rep1 a => a

/-- No literal or single-class character of the atom is a space (ranges are
not constrained). -/
def atomNoLitSpace : RAtom → Bool
  | .lit c => c ≠ ' '
  | .cls items =>
    items.all (fun it => match it with
      | .ch c => c ≠ ' '
      | .range _ _ => true)

def litSpaceFree (rx : List RPiece) : Bool :=
  rx.all (fun p => atomNoLitSpace (pieceAtom p))

/-- No class range of the pattern covers the space character. -/
def noRangeSpace (rx : List RPiece) : Bool :=
  rx.all (fun p => match pieceAtom p with
    | .lit _ => true
    | .cls items =>
      items.all (fun it => match it with
        | .ch _ => true
        | .range lo hi => !(decide (lo ≤ ' ') && decide (' ' ≤ hi))))

/-- No atom of the pattern accepts the space character. -/
def noSpaceMatch (rx : List RPiece) : Bool :=
  rx.all (fun p => !(atomAccepts (pieceAtom p) ' '))

theorem toList_mk (l : List Char) : (String.mk l).toList = l := rfl

theorem stripSpaces_idem (p : String) :
    stripSpaces (stripSpaces p) = stripSpaces p := by
  unfold stripSpaces
  rw [toList_mk, List.filter_filter]
  simp

theorem classItemsOf_no_space : ∀ (body : List Char), ' ' ∉ body →
    ∀ items, classItemsOf body = some items →
    (items.all (fun it => match it with
      | RItem.ch c => c ≠ ' '
      | RItem.range _ _ => true)) = true := by
  intro body
  induction body using classItemsOf.induct with
  | case1 =>
    intro _ items h
    cases h
    rfl
  | case2 a b rest hab ih =>
    intro hsp items h
    simp only [classItemsOf, if_pos hab] at h
    cases hcl : classItemsOf rest with
    | none => rw [hcl] at h; simp at h
    | some its =>
      rw [hcl] at h
      simp only [Option.map_some', Option.some.injEq] at h
      subst h
      simp only [List.all_cons, Bool.and_eq_true]
      refine ⟨by simp, ?_⟩
      exact ih (fun hm => hsp (by simp [hm])) its hcl
  | case3 a b rest hab =>
    intro hsp items h
    simp only [classItemsOf, if_neg hab] at h
    exact Option.noConfusion h
  | case4 a rest hne ih =>
    intro hsp items h
    simp only [classItemsOf] at h
    cases hcl : classItemsOf rest with
    | none => rw [hcl] at h; simp at h
    | some its =>
      rw [hcl] at h
      simp only [Option.map_some', Option.some.injEq] at h
      subst h
      simp only [List.all_cons, Bool.and_eq_true]
      constructor
      · simp only [decide_eq_true_eq]
        intro hc
        exact hsp (by simp [hc])
      · exact ih (fun hm => hsp (by simp [hm])) its hcl

theorem classOf_no_space {body : List Char} (hsp : ' ' ∉ body) {a : RAtom}
    (h : classOf body = some a) : atomNoLitSpace a = true := by
  unfold classOf at h
  split at h
  · exact Option.noConfusion h
  · cases hcl : classItemsOf body with
    | none => rw [hcl] at h; exact Option.noConfusion h
    | some items =>
      rw [hcl] at h
      simp only [Option.map_some', Option.some.injEq] at h
      subst h
      exact classItemsOf_no_space body hsp items hcl

theorem ppF_litSpaceFree (fuel : Nat) :
    (∀ cs : List Char, ' ' ∉ cs →
      ∀ rx, ppParseF fuel cs = some rx → litSpaceFree rx = true) ∧
    (∀ (a : RAtom) (cs : List Char), atomNoLitSpace a = true → ' ' ∉ cs →
      ∀ rx, ppContF fuel a cs = some rx → litSpaceFree rx = true) := by
  induction fuel with
  | zero =>
    constructor
    · intro cs _ rx h; simp [ppParseF] at h
    · intro a cs _ _ rx h; simp [ppContF] at h
  | succ fuel ih =>
    constructor
    · intro cs hsp rx h
      simp only [ppParseF] at h
      split at h
      · cases h; rfl
      · simp at h
      · rename_i c rest
        refine ih.2 _ rest ?_ ?_ rx h
        · simp only [atomNoLitSpace, decide_eq_true_eq]
          intro hc
          exact hsp (by simp [hc])
        · intro hm
          exact hsp (by simp [hm])
      · rename_i rest
        have hrest : ' ' ∉ rest := fun hm => hsp (by simp [hm])
        split at h
        · exact Option.noConfusion h
        · rename_i head rest3 heq
          split at h
          · exact Option.noConfusion h
          · rename_i a hcls
            refine ih.2 a rest3 ?_ ?_ rx h
            · refine classOf_no_space ?_ hcls
              intro hm
              exact hrest ((List.takeWhile_prefix _).subset hm)
            · intro hm
              have h2 : ' ' ∈ List.dropWhile (fun c => decide (c ≠ ']'))
                  rest := by rw [heq]; simp [hm]
              exact hrest ((List.dropWhile_suffix _).subset h2)
      · rename_i c rest _ _ _
        split at h
        · exact Option.noConfusion h
        · refine ih.2 _ rest ?_ ?_ rx h
          · simp only [atomNoLitSpace, decide_eq_true_eq]
            intro hc
            exact hsp (by simp [hc])
          · intro hm
            exact hsp (by simp [hm])
    · intro a cs ha hsp rx h
      simp only [ppContF] at h
      split at h
      · rename_i rest
        cases hp : ppParseF fuel rest with
        | none => rw [hp] at h; simp at h
        | some ps =>
          rw [hp] at h
          simp only [Option.map_some', Option.some.injEq] at h
          subst h
          simp only [litSpaceFree, List.all_cons, Bool.and_eq_true]
          refine ⟨ha, ?_⟩
          exact ih.1 rest (fun hm => hsp (by simp [hm])) ps hp
      · cases hp : ppParseF fuel cs with
        | none => rw [hp] at h; simp at h
        | some ps =>
          rw [hp] at h
          simp only [Option.map_some', Option.some.injEq] at h
          subst h
          simp only [litSpaceFree, List.all_cons, Bool.and_eq_true]
          exact ⟨ha, ih.1 cs hsp ps hp⟩

theorem runLen_take (a : RAtom) : ∀ (cs : List Char) (k : Nat),
    k ≤ runLen a cs → ∀ c ∈ cs.take k, atomAccepts a c = true := by
  intro cs
  induction cs with
  | nil => intro k _ c hc; simp at hc
  | cons x cs ih =>
    intro k hk c hc
    by_cases hx : atomAccepts a x
    · cases k with
      | zero => simp at hc
      | succ j =>
        simp only [List.take, List.mem_cons] at hc
        rcases hc with hc | hc
        · exact hc ▸ hx
        · refine ih j ?_ c hc
          simp only [runLen, if_pos hx] at hk
          omega
    · simp only [runLen, if_neg hx] at hk
      have : k = 0 := by omega
      subst this
      simp at hc

theorem matchPiecesF_chars : ∀ (fuel : Nat),
    (∀ ps cs n, matchPiecesF fuel ps cs = some n →
      ∀ c ∈ cs.take n, ∃ p ∈ ps, atomAccepts (pieceAtom p) c = true) ∧
    (∀ (a : RAtom) ps cs k n, k ≤ runLen a cs →
      tryRepF fuel a ps cs k = some n →
      ∀ c ∈ cs.take n,
        atomAccepts a c = true ∨ ∃ p ∈ ps, atomAccepts (pieceAtom p) c = true)
    := by
  intro fuel
  induction fuel with
  | zero =>
    constructor
    · intro ps cs n h; simp [matchPiecesF] at h
    · intro a ps cs k n _ h; simp [tryRepF] at h
  | succ fuel ih =>
    constructor
    · intro ps cs n h
      simp only [matchPiecesF] at h
      split at h
      · cases h
        intro c hc
        simp at hc
      · rename_i a ps2
        split at h
        · exact Option.noConfusion h
        · rename_i c2 cs2
          split at h
          · rename_i hacc
            cases hm : matchPiecesF fuel ps2 cs2 with
            | none => rw [hm] at h; simp at h
            | some m =>
              rw [hm] at h
              simp only [Option.map_some', Option.some.injEq] at h
              subst h
              intro c hc
              simp only [List.take, List.mem_cons] at hc
              rcases hc with hc | hc
              · exact ⟨.once a, List.mem_cons_self _ _, by
                  simp only [pieceAtom]; exact hc ▸ hacc⟩
              · rcases ih.1 ps2 cs2 m hm c hc with ⟨p, hp, hpa⟩
                exact ⟨p, List.mem_cons_of_mem _ hp, hpa⟩
          · exact Option.noConfusion h
      · rename_i a ps2
        intro c hc
        rcases ih.2 a ps2 _ (runLen a _) n le_rfl h c hc with hca | ⟨p, hp, hpa⟩
        · exact ⟨.rep1 a, List.mem_cons_self _ _, by
            simp only [pieceAtom]; exact hca⟩
        · exact ⟨p, List.mem_cons_of_mem _ hp, hpa⟩
    · intro a ps cs k n hk h
      cases k with
      | zero => simp [tryRepF] at h
      | succ j =>
        simp only [tryRepF] at h
        cases hm : matchPiecesF fuel ps (cs.drop (j + 1)) with
        | none =>
          rw [hm] at h
          exact ih.2 a ps cs j n (by omega) h
        | some m =>
          rw [hm] at h
          simp only [Option.some.injEq] at h
          subst h
          intro c hc
          rw [List.take_add] at hc
          rcases List.mem_append.mp hc with hc | hc
          · exact Or.inl (runLen_take a cs (j + 1) hk c hc)
          · rcases ih.1 ps (cs.drop (j + 1)) m hm c hc with ⟨p, hp, hpa⟩
            exact Or.inr ⟨p, hp, hpa⟩

theorem noSpaceMatch_of_litSpaceFree {rx : List RPiece}
    (h1 : litSpaceFree rx = true) (h2 : noRangeSpace rx = true) :
    noSpaceMatch rx = true := by
  simp only [litSpaceFree, noRangeSpace, noSpaceMatch, List.all_eq_true]
    at h1 h2 ⊢
  intro p hp
  have ha1 := h1 p hp
  have ha2 := h2 p hp
  cases hA : pieceAtom p with
  | lit c =>
    rw [hA] at ha1
    have hc : c ≠ ' ' :=
      of_decide_eq_true (show decide (c ≠ ' ') = true from ha1)
    have hne : ¬ (' ' = c) := fun hh => hc hh.symm
    simp [atomAccepts, hne]
  | cls items =>
    rw [hA] at ha1 ha2
    simp only [atomNoLitSpace, List.all_eq_true] at ha1
    simp only [List.all_eq_true] at ha2
    simp only [atomAccepts, Bool.not_eq_true', List.any_eq_false]
    intro it hit
    have hi1 := ha1 it hit
    have hi2 := ha2 it hit
    cases it with
    | ch c =>
      have hc : c ≠ ' ' :=
        of_decide_eq_true (show decide (c ≠ ' ') = true from hi1)
      have hne : ¬ (' ' = c) := fun hh => hc hh.symm
      simp [itemAccepts, hne]
    | range lo hi =>
      have hi2b : (!(decide (lo ≤ ' ') && decide (' ' ≤ hi))) = true := hi2
      have hcov : ¬ (lo ≤ ' ' ∧ ' ' ≤ hi) := by
        rintro ⟨hl, hr⟩
        rw [decide_eq_true hl, decide_eq_true hr] at hi2b
        simp at hi2b
      simp [itemAccepts, hcov]

/-- C10 amended: the Lexer deletes every space from a pattern before
compiling, so a pattern compiles exactly as its space-stripped form; hence
no literal character and no single-character class entry of a compiled rule
is a space, and a rule none of whose class ranges spans the space character
can never match a space — but, unlike the claim, a class *range* written
around the space (e.g. `[\x1F-!]` left over from `[\x1F-! ]`) still can. -/
theorem c10_amended_spaces_deleted :
    (∀ p : String, compileLexPattern p = compileLexPattern (stripSpaces p)) ∧
    (∀ (p : String) rx, compileLexPattern p = some rx →
      litSpaceFree rx = true) ∧
    (∀ rx, litSpaceFree rx = true → noRangeSpace rx = true →
      noSpaceMatch rx = true) ∧
    (∀ rx cs n, noSpaceMatch rx = true → matchPieces rx cs = some n →
      ∀ c ∈ cs.take n, c ≠ ' ') := by
  refine ⟨?_, ?_, ?_, ?_⟩
  · intro p
    unfold compileLexPattern
    rw [stripSpaces_idem]
  · intro p rx h
    refine (ppF_litSpaceFree _).1 (stripSpaces p).toList ?_ rx h
    unfold stripSpaces
    rw [toList_mk]
    simp
  · intro rx h1 h2
    exact noSpaceMatch_of_litSpaceFree h1 h2
  · intro rx cs n hns hm c hc
    rcases (matchPiecesF_chars _).1 rx cs n hm c hc with ⟨p, hp, hpa⟩
    simp only [noSpaceMatch, List.all_eq_true] at hns
    have := hns p hp
    intro hcsp
    rw [hcsp] at hpa
    rw [hpa] at this
    simp at this

/-- The pattern of C10's counterexample: a literal space inside a class
whose range `\x1F-!` spans the space character `\x20`. -/
def spacePat : String := "[\x1F-! ]"

/-- C10 counterexample: deleting the literal space from `[\x1F-! ]` leaves
`[\x1F-!]`, and that compiled rule still matches the space character, so
"can never match a space character via that rule" is false as stated. -/
theorem c10_counterexample_range_matches_space :
    (' ' ∈ spacePat.toList) ∧
    stripSpaces spacePat = "[\x1F-!]" ∧
    compileLexPattern spacePat =
      some [RPiece.once (RAtom.cls [RItem.range '\x1F' '!'])] ∧
    matchPieces [RPiece.once (RAtom.cls [RItem.range '\x1F' '!'])] [' '] =
      some 1 :=
  ⟨by decide, rfl, rfl, rfl⟩

/-- Witness for `c10_amended_spaces_deleted` at concrete inputs: the rule
`"a b"` compiles like `"ab"`, is literal-space-free and range-space-free,
and its match on `"abx"` consumes no space. -/
theorem c10_amended_spaces_deleted_witness :
    compileLexPattern "a b" = compileLexPattern (stripSpaces "a b") ∧
    litSpaceFree [RPiece.once (RAtom.lit 'a'), RPiece.once (RAtom.lit 'b')]
      = true ∧
    noSpaceMatch [RPiece.once (RAtom.lit 'a'), RPiece.once (RAtom.lit 'b')]
      = true ∧
    ∀ c ∈ (['a', 'b', 'x'].take 2), c ≠ ' ' :=
  ⟨c10_amended_spaces_deleted.1 "a b",
   c10_amended_spaces_deleted.2.1 "a b" _ rfl,
   c10_amended_spaces_deleted.2.2.1 _
     (c10_amended_spaces_deleted.2.1 "a b" _ rfl) (by decide),
   c10_amended_spaces_deleted.2.2.2 _ ['a', 'b', 'x'] 2
     (c10_amended_spaces_deleted.2.2.1 _
       (c10_amended_spaces_deleted.2.1 "a b" _ rfl) (by decide)) rfl⟩

/-!
## The parsing automaton (`DPDA.build_parse_tree`, lines 243-300)

The Python loop mutates `ParseTreeNode` objects shared between the stack
and the tree under construction.  The embedding uses an arena: nodes are
rows of a list, a node is `(symbol, child indices)`, `add_child` appends a
fresh index, and stack entries pair a symbol with the owning node's index
(`None` for the bottom end-marker entry).  The stack's head is the Python
list's *end* (its top).  On acceptance the root (index 0) is read back into
a `PTree`.
-/

structure ANode where
  sym : Sym
  children : List Nat
deriving DecidableEq, Repr

inductive ParseErr where
  | mismatch (expected found : Sym)
  | noRule (nt lookahead : Sym)
  | unknownSym (s : Sym)
  | notFullyConsumed
deriving DecidableEq, Repr

inductive DpdaOut where
  | ok (t : PTree)
  | err (e : ParseErr)
deriving Repr

structure DpdaSt where
  index : Nat
  arena : List ANode
  stack : List (Sym × Option Nat)
deriving Repr

inductive StepRes where
  | next (st : DpdaSt)
  | done (o : DpdaOut)
deriving Repr

def agetD (arena : List ANode) (i : Nat) : ANode :=
  arena.getD i ⟨"", []⟩

def setChildren (arena : List ANode) (p : Nat) (cs : List Nat) :
    List ANode :=
  arena.set p ⟨(agetD arena p).sym, cs⟩

/-- `top_node.add_child(ParseTreeNode(current_token))`: create a fresh leaf
and append its index to the parent's children. -/
def addLeaf (arena : List ANode) (p : Nat) (s : Sym) : List ANode :=
  setChildren arena p ((agetD arena p).children ++ [arena.length]) ++
    [⟨s, []⟩]

/-- `[base, base+1, ..., base+k-1]` — the indices of `k` freshly appended
nodes. -/
def idsFrom : Nat → Nat → List Nat
  | _, 0 => []
  | base, k + 1 => base :: idsFrom (base + 1) k

/-- Create the fresh nodes of an expansion (one per non-ε right-hand-side
symbol) and, when the popped entry owns a node, append their indices to its
children, in order. -/
def expandArena (arena : List ANode) (tn : Option Nat) (nonEps : List Sym) :
    List Nat × List ANode :=
  let ids := idsFrom arena.length nonEps.length
  let arena2 := arena ++ nonEps.map (fun s => (⟨s, []⟩ : ANode))
  let arena3 := match tn with
    | some p => setChildren arena2 p ((agetD arena2 p).children ++ ids)
    | none => arena2
  (ids, arena3)

/-- Read the tree rooted at `nid` back out of the arena; child indices are
always larger than their parent's, so `arena.length` fuel suffices. -/
def reconstructAux (arena : List ANode) : Nat → Nat → PTree
  | 0, nid => .node (agetD arena nid).sym []
  | fuel + 1, nid =>
    .node (agetD arena nid).sym
      ((agetD arena nid).children.map (reconstructAux arena fuel))

def reconstruct (arena : List ANode) : PTree :=
  reconstructAux arena arena.length 0

/-- One iteration of the `while stack:` loop.  Branch order mirrors the
source: accept on `top == current == "$"`, match-and-consume, terminal
mismatch, non-terminal expansion (a missing or falsy table entry is "no
rule"), unknown symbol; an empty stack runs the post-loop
"input not fully consumed" check. -/
def dpdaStep (terms nts : List Sym) (table : PTable) (toks : List Sym)
    (st : DpdaSt) : StepRes :=
  match st.stack with
  | [] =>
    if st.index ≠ toks.length - 1 then .done (.err .notFullyConsumed)
    else .done (.ok (reconstruct st.arena))
  | (top, tn) :: rest =>
    let cur := toks.getD st.index ""
    if top = cur ∧ top = "$" then .done (.ok (reconstruct st.arena))
    else if top = cur then
      let arena2 := match tn with
        | some p => addLeaf st.arena p cur
        | none => st.arena
      .next ⟨st.index + 1, arena2, rest⟩
    else if top ∈ terms then .done (.err (.mismatch top cur))
    else if top ∈ nts then
      match getCell table top cur with
      | none => .done (.err (.noRule top cur))
      | some rule =>
        if rule = [] then .done (.err (.noRule top cur))
        else
          let nonEps := rule.filter (fun s => s ≠ "eps")
          let pr := expandArena st.arena tn nonEps
          let pairs := rule.zip pr.1
          let pushed := pairs.filterMap
            (fun p => if p.1 = "eps" then none else some (p.1, some p.2))
          .next ⟨st.index, pr.2, pushed ++ rest⟩
    else .done (.err (.unknownSym top))

def dpdaLoop (terms nts : List Sym) (table : PTable) (toks : List Sym) :
    Nat → DpdaSt → Option DpdaOut
  | 0, _ => none
  | fuel + 1, st =>
    match dpdaStep terms nts table toks st with
    | .done o => some o
    | .next st2 => dpdaLoop terms nts table toks fuel st2

/-- `DPDA.build_parse_tree(tokens)`: append the end marker, create the root
for the start symbol, seed the stack with `[$, start]` (head = top), and
loop.  `none` means the fuel ran out. -/
def buildParseTree (terms nts : List Sym) (table : PTable) (start : Sym)
    (tokens : List Sym) (fuel : Nat) : Option DpdaOut :=
  dpdaLoop terms nts table (tokens ++ ["$"]) fuel
    ⟨0, [⟨start, []⟩], [(start, some 0), ("$", none)]⟩

/-- The expression grammar of scenarios A/B and C2:
`E -> T Ep`, `Ep -> + T Ep | eps`, `T -> id`. -/
def scenG : Grammar :=
  { start_symbol := some "E"
    non_terminals := ["E", "Ep", "T"]
    terminals := ["+", "id"]
    productions :=
      [("E", [["T", "Ep"]]),
       ("Ep", [["+", "T", "Ep"], ["eps"]]),
       ("T", [["id"]])] }

/-- The LL(1) parse table the pipeline builds for `scenG`. -/
def scenTable : PTable := (buildParseTable scenG 10).getD []

/-!
## C2: the "input not fully consumed" branch is dead code

The stack always carries the `("$", None)` entry at its bottom, and popping
that entry always returns (accept, mismatch or unknown-symbol), so the
post-loop check at lines 297-299 is unreachable: leftover input surfaces as
a missing-table-entry or unknown-symbol error instead.
-/

/-- The stack still carries the bottom end-marker entry. -/
def HasBottom (st : DpdaSt) : Prop :=
  ∃ xs, st.stack = xs ++ [(("$" : Sym), (none : Option Nat))]

theorem stack_decomp {top : Sym} {tn : Option Nat}
    {rest xs : List (Sym × Option Nat)} {b : Sym × Option Nat}
    (h : (top, tn) :: rest = xs ++ [b]) :
    ((top, tn) = b ∧ rest = []) ∨
    (∃ xs2, rest = xs2 ++ [b]) := by
  cases xs with
  | nil =>
    simp only [List.nil_append, List.cons.injEq] at h
    exact Or.inl ⟨h.1, h.2⟩
  | cons y ys =>
    simp only [List.cons_append, List.cons.injEq] at h
    exact Or.inr ⟨ys, h.2⟩

theorem dpdaStep_cons_done {terms nts : List Sym} {table : PTable}
    {toks : List Sym} {i : Nat} {ar : List ANode} {top : Sym}
    {tn : Option Nat} {rest : List (Sym × Option Nat)} {o : DpdaOut}
    (h : dpdaStep terms nts table toks ⟨i, ar, (top, tn) :: rest⟩ =
      .done o) :
    o ≠ .err .notFullyConsumed := by
  simp only [dpdaStep] at h
  repeat' split at h
  all_goals cases h
  all_goals simp

theorem dpdaStep_cons_next {terms nts : List Sym} {table : PTable}
    {toks : List Sym} {i : Nat} {ar : List ANode} {top : Sym}
    {tn : Option Nat} {rest xs : List (Sym × Option Nat)} {st2 : DpdaSt}
    (hn : "$" ∉ nts)
    (hB : (top, tn) :: rest = xs ++ [(("$" : Sym), (none : Option Nat))])
    (h : dpdaStep terms nts table toks ⟨i, ar, (top, tn) :: rest⟩ =
      .next st2) :
    HasBottom st2 := by
  rcases stack_decomp hB with ⟨hb, hrest⟩ | ⟨xs2, hrest⟩
  · -- popping the bottom entry never yields `.next`
    exfalso
    have htop : top = "$" := congrArg Prod.fst hb
    subst hrest
    simp only [dpdaStep] at h
    by_cases hcur : top = toks.getD i ""
    · rw [if_pos ⟨hcur, htop⟩] at h
      exact StepRes.noConfusion h
    · rw [if_neg (fun hc => hcur hc.1), if_neg hcur] at h
      by_cases hmt : top ∈ terms
      · rw [if_pos hmt] at h
        exact StepRes.noConfusion h
      · rw [if_neg hmt] at h
        by_cases hmn : top ∈ nts
        · exact hn (htop ▸ hmn)
        · rw [if_neg hmn] at h
          exact StepRes.noConfusion h
  · simp only [dpdaStep] at h
    by_cases hacc : top = toks.getD i "" ∧ top = "$"
    · rw [if_pos hacc] at h
      exact StepRes.noConfusion h
    · rw [if_neg hacc] at h
      by_cases hm : top = toks.getD i ""
      · rw [if_pos hm] at h
        cases h
        exact ⟨xs2, hrest⟩
      · rw [if_neg hm] at h
        by_cases hmt : top ∈ terms
        · rw [if_pos hmt] at h
          exact StepRes.noConfusion h
        · rw [if_neg hmt] at h
          by_cases hmn : top ∈ nts
          · rw [if_pos hmn] at h
            cases hcell : getCell table top (toks.getD i "") with
            | none =>
              rw [hcell] at h
              exact StepRes.noConfusion h
            | some rule =>
              rw [hcell] at h
              dsimp only at h
              by_cases hre : rule = []
              · rw [if_pos hre] at h
                exact StepRes.noConfusion h
              · rw [if_neg hre] at h
                cases h
                refine ⟨List.filterMap
                    (fun p => if p.1 = "eps" then none else some (p.1, some p.2))
                    (rule.zip (expandArena ar tn
                      (List.filter (fun s => decide (s ≠ "eps")) rule)).1) ++
                  xs2, ?_⟩
                show _ ++ rest = _
                rw [hrest, ← List.append_assoc]
          · rw [if_neg hmn] at h
            exact StepRes.noConfusion h

theorem dpdaLoop_ne_notFullyConsumed {terms nts : List Sym} {table : PTable}
    {toks : List Sym} (hn : "$" ∉ nts) :
    ∀ (fuel : Nat) (st : DpdaSt), HasBottom st →
      dpdaLoop terms nts table toks fuel st ≠
        some (.err .notFullyConsumed) := by
  intro fuel
  induction fuel with
  | zero => intro st _ h; simp [dpdaLoop] at h
  | succ fuel ih =>
    intro st hB h
    obtain ⟨xs, hxs⟩ := hB
    obtain ⟨i, ar, stk⟩ := st
    simp only at hxs
    subst hxs
    cases hxs2 : xs ++ [(("$" : Sym), (none : Option Nat))] with
    | nil => simp at hxs2
    | cons hd rest =>
      obtain ⟨top, tn⟩ := hd
      rw [hxs2] at h
      simp only [dpdaLoop] at h
      cases hstep : dpdaStep terms nts table toks ⟨i, ar, (top, tn) :: rest⟩
        with
      | done o =>
        rw [hstep] at h
        simp only [Option.some.injEq] at h
        exact dpdaStep_cons_done hstep h
      | next st2 =>
        rw [hstep] at h
        exact ih st2 (dpdaStep_cons_next hn hxs2.symm hstep) h

/-- C2 counterexample: for the grammar `E -> T Ep`, `Ep -> + T Ep | eps`,
`T -> id` with input tokens `[id, +, id, id]`, the automaton consumes
`id + id` and then fails — but with the missing-table-entry error
`no rule for Ep with lookahead id`, not with the claimed
"input not fully consumed" error. -/
theorem c2_counterexample_leftover_input_reports_no_rule :
    buildParseTree scenG.terminals scenG.non_terminals scenTable "E"
      ["id", "+", "id", "id"] 50 = some (.err (.noRule "Ep" "id")) ∧
    ParseErr.noRule "Ep" "id" ≠ ParseErr.notFullyConsumed :=
  ⟨rfl, by decide⟩

/-- C2 amended: a run with unread leftover tokens is not silently accepted
— on the claim's own example it fails with the missing-table-entry
SyntaxError (`no rule for Ep with lookahead id`) — but the failure is never
reported as "input not fully consumed": whenever the end marker is not a
non-terminal, that branch of `build_parse_tree` (lines 297-299) is
unreachable, because the stack's bottom `$` entry is popped before the
stack can empty and popping it always accepts or rejects on the spot. -/
theorem c2_amended_no_rule_and_dead_branch :
    (buildParseTree scenG.terminals scenG.non_terminals scenTable "E"
      ["id", "+", "id", "id"] 50 = some (.err (.noRule "Ep" "id")) ∧
     ∀ t, buildParseTree scenG.terminals scenG.non_terminals scenTable "E"
      ["id", "+", "id", "id"] 50 ≠ some (.ok t)) ∧
    (∀ (terms2 nts2 : List Sym) (table2 : PTable) (s : Sym)
       (tokens : List Sym) (fuel : Nat), "$" ∉ nts2 →
       buildParseTree terms2 nts2 table2 s tokens fuel ≠
         some (.err .notFullyConsumed)) := by
  refine ⟨⟨rfl, ?_⟩, ?_⟩
  · intro t h
    rw [show buildParseTree scenG.terminals scenG.non_terminals scenTable "E"
        ["id", "+", "id", "id"] 50 = some (.err (.noRule "Ep" "id")) from rfl]
      at h
    simp at h
  · intro terms2 nts2 table2 s tokens fuel hn
    exact dpdaLoop_ne_notFullyConsumed hn fuel _ ⟨[(s, some 0)], rfl⟩

/-- Witness for `c2_amended_no_rule_and_dead_branch` at the scenario
instance. -/
theorem c2_amended_no_rule_and_dead_branch_witness :
    buildParseTree scenG.terminals scenG.non_terminals scenTable "E"
      ["id", "+", "id", "id"] 50 ≠ some (.err .notFullyConsumed) :=
  c2_amended_no_rule_and_dead_branch.2 scenG.terminals scenG.non_terminals
    scenTable "E" ["id", "+", "id", "id"] 50 (by decide)

/-!
## C9: every matched terminal node receives one identically-labelled child

Matching a terminal (lines 264-268) attaches a fresh child node carrying
the same terminal label to the node that was pre-created for that
right-hand-side terminal at expansion time (lines 284-292), so the
terminal appears twice along its root-to-leaf path.  This is proved as a
run invariant of the arena machine, below.
-/

theorem length_setChildren (a : List ANode) (p : Nat) (cs : List Nat) :
    (setChildren a p cs).length = a.length := by
  simp [setChildren]

theorem agetD_set_ne : ∀ (a : List ANode) (p : Nat) (v : ANode) (i : Nat),
    i ≠ p → agetD (a.set p v) i = agetD a i := by
  intro a
  induction a with
  | nil => intro p v i _; rfl
  | cons x xs ih =>
    intro p v i h
    cases p with
    | zero =>
      cases i with
      | zero => exact absurd rfl h
      | succ j => rfl
    | succ q =>
      cases i with
      | zero => rfl
      | succ j =>
        show agetD (xs.set q v) j = agetD xs j
        exact ih q v j (fun hh => h (by rw [hh]))

theorem agetD_set_self : ∀ (a : List ANode) (p : Nat) (v : ANode),
    p < a.length → agetD (a.set p v) p = v := by
  intro a
  induction a with
  | nil => intro p v h; simp at h
  | cons x xs ih =>
    intro p v h
    cases p with
    | zero => rfl
    | succ q =>
      show agetD (xs.set q v) q = v
      exact ih q v (by simpa using h)

theorem agetD_setChildren_ne (a : List ANode) {p : Nat} (cs : List Nat)
    {i : Nat} (h : i ≠ p) : agetD (setChildren a p cs) i = agetD a i :=
  agetD_set_ne a p _ i h

theorem agetD_setChildren_self {a : List ANode} {p : Nat}
    (h : p < a.length) (cs : List Nat) :
    agetD (setChildren a p cs) p = ⟨(agetD a p).sym, cs⟩ :=
  agetD_set_self a p _ h

theorem agetD_append_lt : ∀ {a : List ANode} (b : List ANode) {i : Nat},
    i < a.length → agetD (a ++ b) i = agetD a i := by
  intro a
  induction a with
  | nil => intro b i h; simp at h
  | cons x xs ih =>
    intro b i h
    cases i with
    | zero => rfl
    | succ j =>
      show agetD (xs ++ b) j = agetD xs j
      exact ih b (by simpa using h)

theorem agetD_append_ge : ∀ {a : List ANode} (b : List ANode) {i : Nat},
    a.length ≤ i → agetD (a ++ b) i = agetD b (i - a.length) := by
  intro a
  induction a with
  | nil => intro b i _; simp [agetD]
  | cons x xs ih =>
    intro b i h
    cases i with
    | zero => simp at h
    | succ j =>
      show agetD (xs ++ b) j = _
      rw [ih b (by simpa using h)]
      simp

theorem agetD_out : ∀ {a : List ANode} {i : Nat}, a.length ≤ i →
    agetD a i = ⟨"", []⟩ := by
  intro a
  induction a with
  | nil => intro i _; rfl
  | cons x xs ih =>
    intro i h
    cases i with
    | zero => simp at h
    | succ j =>
      show agetD xs j = _
      exact ih (by simpa using h)

theorem set_agetD_self {a : List ANode} {p : Nat} (h : p < a.length) :
    a.set p (agetD a p) = a := by
  induction a generalizing p with
  | nil => simp at h
  | cons x xs ih =>
    cases p with
    | zero => simp [agetD, List.getD]
    | succ q =>
      simp only [List.length_cons, Nat.succ_lt_succ_iff] at h
      simp only [List.set, List.cons.injEq, true_and]
      exact ih h

/-- The node indices owned by the stack entries. -/
def stackIds (stk : List (Sym × Option Nat)) : List Nat :=
  stk.filterMap Prod.snd

theorem stackIds_cons_some (s : Sym) (n : Nat)
    (rest : List (Sym × Option Nat)) :
    stackIds ((s, some n) :: rest) = n :: stackIds rest := rfl

theorem stackIds_cons_none (s : Sym) (rest : List (Sym × Option Nat)) :
    stackIds ((s, none) :: rest) = stackIds rest := rfl

theorem stackIds_append (xs ys : List (Sym × Option Nat)) :
    stackIds (xs ++ ys) = stackIds xs ++ stackIds ys := by
  simp [stackIds, List.filterMap_append]

theorem mem_stackIds {stk : List (Sym × Option Nat)} {n : Nat} :
    n ∈ stackIds stk ↔ ∃ s, (s, some n) ∈ stk := by
  simp only [stackIds, List.mem_filterMap]
  constructor
  · rintro ⟨⟨s, o⟩, hm, ho⟩
    cases o with
    | none => simp at ho
    | some m =>
      simp only [Option.some.injEq] at ho
      exact ⟨s, ho ▸ hm⟩
  · rintro ⟨s, hm⟩
    exact ⟨(s, some n), hm, rfl⟩

theorem mem_idsFrom : ∀ (k base x : Nat),
    x ∈ idsFrom base k ↔ base ≤ x ∧ x < base + k := by
  intro k
  induction k with
  | zero => intro base x; simp [idsFrom]
  | succ j ih =>
    intro base x
    simp only [idsFrom, List.mem_cons, ih (base + 1)]
    omega

theorem nodup_idsFrom : ∀ (k base : Nat), (idsFrom base k).Nodup := by
  intro k
  induction k with
  | zero => intro base; simp [idsFrom]
  | succ j ih =>
    intro base
    simp only [idsFrom, List.nodup_cons]
    refine ⟨fun hm => ?_, ih (base + 1)⟩
    rw [mem_idsFrom] at hm
    omega

theorem length_idsFrom : ∀ (k base : Nat), (idsFrom base k).length = k := by
  intro k
  induction k with
  | zero => intro base; rfl
  | succ j ih => intro base; simp [idsFrom, ih]

theorem zip_idsFrom_mem : ∀ (l : List Sym) (base : Nat) (x : Sym × Nat),
    x ∈ l.zip (idsFrom base l.length) →
    ∃ k, k < l.length ∧ x.2 = base + k ∧ l.getD k "" = x.1 := by
  intro l
  induction l with
  | nil => intro base x hx; simp at hx
  | cons s l ih =>
    intro base x hx
    simp only [List.length_cons, idsFrom, List.zip_cons_cons,
      List.mem_cons] at hx
    rcases hx with hx | hx
    · exact ⟨0, by simp, by simp [hx], by simp [hx]⟩
    · rcases ih (base + 1) x hx with ⟨k, hk, he, hg⟩
      exact ⟨k + 1, by simp; omega, by omega, hg⟩

theorem agetD_map_fresh : ∀ (l : List Sym) (k : Nat), k < l.length →
    agetD (l.map (fun s => (⟨s, []⟩ : ANode))) k = ⟨l.getD k "", []⟩ := by
  intro l
  induction l with
  | nil => intro k h; simp at h
  | cons s l ih =>
    intro k h
    cases k with
    | zero => rfl
    | succ j =>
      show agetD (l.map _) j = _
      exact ih j (by simpa using h)

theorem agetD_append_map_fresh {a : List ANode} (l : List Sym) {k : Nat}
    (hk : k < l.length) :
    agetD (a ++ l.map (fun s => (⟨s, []⟩ : ANode))) (a.length + k) =
      ⟨l.getD k "", []⟩ := by
  rw [agetD_append_ge _ (by omega)]
  have h2 : a.length + k - a.length = k := by omega
  rw [h2]
  exact agetD_map_fresh l k hk

mutual
/-- Every terminal-labelled node of the tree that arises from an expansion
has exactly one child: a leaf bearing the same terminal label (so a
consumed terminal appears twice on its root-to-leaf path); non-terminal
nodes are checked recursively. -/
def dupTermB (isT : Sym → Bool) : PTree → Bool
  | .node s cs =>
    if isT s then
      match cs with
      | [.node s2 cs2] => s2 == s && cs2.isEmpty
      | _ => false
    else dupTermListB isT cs
def dupTermListB (isT : Sym → Bool) : List PTree → Bool
  | [] => true
  | t :: ts => dupTermB isT t && dupTermListB isT ts
end

/-- The run invariant of the arena machine: indices are in range, child
indices grow (the arena is topologically ordered), stack entries reference
nodes carrying their symbol that have no children yet, the node indices on
the stack are distinct, the bottom entry is the unowned end marker, every
terminal-labelled node is either an unmatched childless slot or carries
exactly its one identically-labelled childless leaf (which no stack entry
references), every childless terminal node is still referenced by the
stack or is the unique leaf of an identically-labelled parent, and no
index is a child of two nodes. -/
structure Inv (terms : List Sym) (toks : List Sym) (st : DpdaSt) :
    Prop where
  alen : 0 < st.arena.length
  idx : st.index < toks.length
  awf : ∀ i, i < st.arena.length → ∀ c ∈ (agetD st.arena i).children,
    i < c ∧ c < st.arena.length
  sref : ∀ s nid, (s, some nid) ∈ st.stack →
    nid < st.arena.length ∧ (agetD st.arena nid).sym = s
  bot : ∃ xs, st.stack = xs ++ [(("$" : Sym), (none : Option Nat))] ∧
    ∀ p ∈ xs, p.1 ≠ "$"
  ndup : (stackIds st.stack).Nodup
  slots : ∀ s nid, (s, some nid) ∈ st.stack →
    (agetD st.arena nid).children = []
  dup : ∀ i, i < st.arena.length → (agetD st.arena i).sym ∈ terms →
    (agetD st.arena i).children = [] ∨
    ∃ c, (agetD st.arena i).children = [c] ∧ c < st.arena.length ∧
      (agetD st.arena c).sym = (agetD st.arena i).sym ∧
      (agetD st.arena c).children = [] ∧ c ∉ stackIds st.stack
  leafLoc : ∀ i, i < st.arena.length → (agetD st.arena i).sym ∈ terms →
    (agetD st.arena i).children = [] →
    i ∈ stackIds st.stack ∨
    ∃ j, j < st.arena.length ∧ (agetD st.arena j).children = [i] ∧
      (agetD st.arena j).sym = (agetD st.arena i).sym
  uniq : ∀ c i j, i < st.arena.length → j < st.arena.length →
    c ∈ (agetD st.arena i).children → c ∈ (agetD st.arena j).children →
    i = j

theorem dupTermListB_eq_true_iff (isT : Sym → Bool) :
    ∀ (l : List PTree),
      dupTermListB isT l = true ↔ ∀ t ∈ l, dupTermB isT t = true := by
  intro l
  induction l with
  | nil => simp [dupTermListB]
  | cons t ts ih =>
    simp only [dupTermListB, Bool.and_eq_true, ih, List.forall_mem_cons]

theorem stackIds_tail_subset (s : Sym) (tn : Option Nat)
    (rest : List (Sym × Option Nat)) :
    stackIds rest ⊆ stackIds ((s, tn) :: rest) := by
  intro x hx
  cases tn with
  | none => exact hx
  | some n => exact List.mem_cons_of_mem _ hx

theorem filterMap_push_eq_map :
    ∀ (l : List (Sym × Nat)), (∀ q ∈ l, q.1 ≠ "eps") →
      l.filterMap
        (fun p => if p.1 = "eps" then none else some (p.1, some p.2)) =
      l.map (fun p => (p.1, some p.2)) := by
  intro l
  induction l with
  | nil => intro _; rfl
  | cons q l ih =>
    intro h
    have hq : q.1 ≠ "eps" := h q (List.mem_cons_self _ _)
    have hfq : (fun p : Sym × Nat =>
        if p.1 = "eps" then none else some (p.1, some p.2)) q =
        some (q.1, some q.2) := by
      simp [hq]
    simp only [List.filterMap_cons, hfq, List.map_cons]
    rw [ih (fun x hx => h x (List.mem_cons_of_mem _ hx))]

theorem stackIds_push_map : ∀ (l : List (Sym × Nat)),
    stackIds (l.map (fun p => (p.1, some p.2))) =
      l.map (fun p => p.2) := by
  intro l
  induction l with
  | nil => rfl
  | cons q l ih =>
    show q.2 :: stackIds (l.map (fun p => (p.1, some p.2))) =
      (q :: l).map (fun p => p.2)
    rw [ih]
    rfl

theorem map_snd_zip_idsFrom : ∀ (l : List Sym) (base : Nat),
    (l.zip (idsFrom base l.length)).map (fun p => p.2) =
      idsFrom base l.length := by
  intro l
  induction l with
  | nil => intro base; rfl
  | cons s l ih =>
    intro base
    have hz : (s :: l).zip (idsFrom base (s :: l).length) =
        (s, base) :: l.zip (idsFrom (base + 1) l.length) := rfl
    rw [hz, List.map_cons, ih (base + 1)]
    rfl

/-- Popping a non-bottom entry whose node (if any) is not
terminal-labelled preserves the invariant, for any valid new input
index: this covers the no-node match step and the ε-expansion. -/
theorem inv_drop {terms toks : List Sym} {i : Nat} {ar : List ANode}
    {top : Sym} {tn : Option Nat} {rest : List (Sym × Option Nat)}
    {i2 : Nat}
    (I : Inv terms toks ⟨i, ar, (top, tn) :: rest⟩)
    (hne : top ≠ "$")
    (hidx : i2 < toks.length)
    (hp : ∀ p, tn = some p → top ∉ terms) :
    Inv terms toks ⟨i2, ar, rest⟩ := by
  have hsub : stackIds rest ⊆ stackIds ((top, tn) :: rest) :=
    stackIds_tail_subset top tn rest
  refine ⟨I.alen, hidx, I.awf, ?_, ?_, ?_, ?_, ?_, ?_, I.uniq⟩
  · intro s nid hm
    exact I.sref s nid (List.mem_cons_of_mem _ hm)
  · obtain ⟨xs, hxs0, hxp⟩ := I.bot
    have hxs : (top, tn) :: rest =
        xs ++ [(("$" : Sym), (none : Option Nat))] := hxs0
    cases xs with
    | nil =>
      exfalso
      simp only [List.nil_append, List.cons.injEq] at hxs
      exact hne (congrArg Prod.fst hxs.1)
    | cons y ys =>
      simp only [List.cons_append, List.cons.injEq] at hxs
      exact ⟨ys, hxs.2, fun q hq => hxp q (List.mem_cons_of_mem _ hq)⟩
  · cases tn with
    | none => exact I.ndup
    | some p =>
      have h2 : (stackIds ((top, some p) :: rest)).Nodup := I.ndup
      rw [stackIds_cons_some] at h2
      exact h2.of_cons
  · intro s nid hm
    exact I.slots s nid (List.mem_cons_of_mem _ hm)
  · intro j hj hsym
    rcases I.dup j hj hsym with h | ⟨c, h1, h2, h3, h4, h5⟩
    · exact Or.inl h
    · exact Or.inr ⟨c, h1, h2, h3, h4, fun hc => h5 (hsub hc)⟩
  · intro j hj hsym hch
    rcases I.leafLoc j hj hsym hch with hmem | hex
    · cases tn with
      | none => exact Or.inl hmem
      | some p =>
        have hmem2 : j ∈ stackIds ((top, some p) :: rest) := hmem
        rw [stackIds_cons_some] at hmem2
        rcases List.mem_cons.mp hmem2 with hjp | hmem3
        · exfalso
          have hps := I.sref top p (List.mem_cons_self _ _)
          have hsy : (agetD ar j).sym = top := by rw [hjp]; exact hps.2
          exact hp p rfl (hsy ▸ hsym)
        · exact Or.inl hmem3
    · exact Or.inr hex

/-- Matching a terminal whose stack entry owns node `p` appends a fresh
leaf carrying the same symbol to `p`'s children and preserves the
invariant: `p` becomes the duplicated terminal node of the `dup` clause. -/
theorem inv_match_some {terms toks : List Sym} {i : Nat} {ar : List ANode}
    {top : Sym} {p : Nat} {rest : List (Sym × Option Nat)}
    (I : Inv terms toks ⟨i, ar, (top, some p) :: rest⟩)
    (hne : top ≠ "$")
    (hidx : i + 1 < toks.length) :
    Inv terms toks ⟨i + 1, addLeaf ar p top, rest⟩ := by
  have hps := I.sref top p (List.mem_cons_self _ _)
  have hplen : p < ar.length := hps.1
  have hpsym : (agetD ar p).sym = top := hps.2
  have hpch : (agetD ar p).children = [] :=
    I.slots top p (List.mem_cons_self _ _)
  have hlen2 : (addLeaf ar p top).length = ar.length + 1 := by
    simp [addLeaf, length_setChildren]
  have hsl : (setChildren ar p
      ((agetD ar p).children ++ [ar.length])).length = ar.length :=
    length_setChildren _ _ _
  have g2 : ∀ x, x ≠ p → x < ar.length →
      agetD (addLeaf ar p top) x = agetD ar x := by
    intro x hx hlt
    unfold addLeaf
    rw [agetD_append_lt _ (by rw [hsl]; exact hlt)]
    exact agetD_setChildren_ne ar _ hx
  have g1 : agetD (addLeaf ar p top) p = ⟨top, [ar.length]⟩ := by
    unfold addLeaf
    rw [agetD_append_lt _ (by rw [hsl]; exact hplen),
      agetD_setChildren_self hplen, hpch, hpsym, List.nil_append]
  have g3 : agetD (addLeaf ar p top) ar.length = ⟨top, []⟩ := by
    unfold addLeaf
    rw [agetD_append_ge _ (le_of_eq hsl), hsl, Nat.sub_self]
    rfl
  have hrestlt : ∀ nid ∈ stackIds rest, nid < ar.length := by
    intro nid hm
    rcases mem_stackIds.mp hm with ⟨s, hms⟩
    exact (I.sref s nid (List.mem_cons_of_mem _ hms)).1
  have hndup : (stackIds ((top, some p) :: rest)).Nodup := I.ndup
  rw [stackIds_cons_some] at hndup
  have hpnotin : p ∉ stackIds rest := (List.nodup_cons.mp hndup).1
  have hrdup : (stackIds rest).Nodup := (List.nodup_cons.mp hndup).2
  refine ⟨?_, hidx, ?_, ?_, ?_, hrdup, ?_, ?_, ?_, ?_⟩
  · show 0 < (addLeaf ar p top).length
    rw [hlen2]
    omega
  · show ∀ x, x < (addLeaf ar p top).length →
      ∀ c ∈ (agetD (addLeaf ar p top) x).children,
        x < c ∧ c < (addLeaf ar p top).length
    intro x hx c hc
    rw [hlen2] at hx
    by_cases hxp : x = p
    · subst hxp
      rw [g1] at hc
      simp only [List.mem_singleton] at hc
      subst hc
      rw [hlen2]
      omega
    · by_cases hxL : x = ar.length
      · subst hxL
        rw [g3] at hc
        simp at hc
      · have hxlt : x < ar.length := by omega
        rw [g2 x hxp hxlt] at hc
        obtain ⟨ha, hb⟩ := I.awf x hxlt c hc
        have hb2 : c < ar.length := hb
        rw [hlen2]
        omega
  · show ∀ s nid, (s, some nid) ∈ rest →
      nid < (addLeaf ar p top).length ∧
        (agetD (addLeaf ar p top) nid).sym = s
    intro s nid hm
    obtain ⟨h1, h2⟩ := I.sref s nid (List.mem_cons_of_mem _ hm)
    have h1b : nid < ar.length := h1
    have hnp : nid ≠ p := fun he =>
      hpnotin (he ▸ mem_stackIds.mpr ⟨s, hm⟩)
    rw [g2 nid hnp h1, hlen2]
    exact ⟨by omega, h2⟩
  · show ∃ xs, rest = xs ++ [(("$" : Sym), (none : Option Nat))] ∧
      ∀ q ∈ xs, q.1 ≠ "$"
    obtain ⟨xs, hxs0, hxp⟩ := I.bot
    have hxs : (top, some p) :: rest =
        xs ++ [(("$" : Sym), (none : Option Nat))] := hxs0
    cases xs with
    | nil =>
      exfalso
      simp only [List.nil_append, List.cons.injEq] at hxs
      exact hne (congrArg Prod.fst hxs.1)
    | cons y ys =>
      simp only [List.cons_append, List.cons.injEq] at hxs
      exact ⟨ys, hxs.2, fun q hq => hxp q (List.mem_cons_of_mem _ hq)⟩
  · show ∀ s nid, (s, some nid) ∈ rest →
      (agetD (addLeaf ar p top) nid).children = []
    intro s nid hm
    obtain ⟨h1, _⟩ := I.sref s nid (List.mem_cons_of_mem _ hm)
    have hnp : nid ≠ p := fun he =>
      hpnotin (he ▸ mem_stackIds.mpr ⟨s, hm⟩)
    rw [g2 nid hnp h1]
    exact I.slots s nid (List.mem_cons_of_mem _ hm)
  · show ∀ x, x < (addLeaf ar p top).length →
      (agetD (addLeaf ar p top) x).sym ∈ terms →
      (agetD (addLeaf ar p top) x).children = [] ∨
      ∃ c, (agetD (addLeaf ar p top) x).children = [c] ∧
        c < (addLeaf ar p top).length ∧
        (agetD (addLeaf ar p top) c).sym =
          (agetD (addLeaf ar p top) x).sym ∧
        (agetD (addLeaf ar p top) c).children = [] ∧
        c ∉ stackIds rest
    intro x hx hsym
    rw [hlen2] at hx
    by_cases hxp : x = p
    · subst hxp
      refine Or.inr ⟨ar.length, ?_, ?_, ?_, ?_, ?_⟩
      · rw [g1]
      · rw [hlen2]; omega
      · rw [g3, g1]
      · rw [g3]
      · intro hmem
        exact absurd (hrestlt _ hmem) (by omega)
    · by_cases hxL : x = ar.length
      · subst hxL
        rw [g3]
        exact Or.inl rfl
      · have hxlt : x < ar.length := by omega
        rw [g2 x hxp hxlt] at hsym ⊢
        rcases I.dup x hxlt hsym with h | ⟨c, h1, h2, h3, h4, h5⟩
        · exact Or.inl h
        · have hcp : c ≠ p := by
            intro he
            subst he
            exact h5 (List.mem_cons_self _ _)
          have h2b : c < ar.length := h2
          refine Or.inr ⟨c, h1, ?_, ?_, ?_, ?_⟩
          · rw [hlen2]; omega
          · rw [g2 c hcp h2]; exact h3
          · rw [g2 c hcp h2]; exact h4
          · intro hc
            exact h5 (stackIds_tail_subset _ _ _ hc)
  · show ∀ x, x < (addLeaf ar p top).length →
      (agetD (addLeaf ar p top) x).sym ∈ terms →
      (agetD (addLeaf ar p top) x).children = [] →
      x ∈ stackIds rest ∨
      ∃ j, j < (addLeaf ar p top).length ∧
        (agetD (addLeaf ar p top) j).children = [x] ∧
        (agetD (addLeaf ar p top) j).sym =
          (agetD (addLeaf ar p top) x).sym
    intro x hx hsym hch
    rw [hlen2] at hx
    by_cases hxp : x = p
    · subst hxp
      rw [g1] at hch
      simp at hch
    · by_cases hxL : x = ar.length
      · subst hxL
        refine Or.inr ⟨p, ?_, ?_, ?_⟩
        · rw [hlen2]; omega
        · rw [g1]
        · rw [g1, g3]
      · have hxlt : x < ar.length := by omega
        rw [g2 x hxp hxlt] at hsym hch ⊢
        rcases I.leafLoc x hxlt hsym hch with hmem | ⟨j, hj1, hj2, hj3⟩
        · have hmem2 : x ∈ p :: stackIds rest := hmem
          rcases List.mem_cons.mp hmem2 with he | hm
          · exact absurd he hxp
          · exact Or.inl hm
        · have hjp : j ≠ p := by
            intro he
            subst he
            rw [hpch] at hj2
            simp at hj2
          have hj1b : j < ar.length := hj1
          refine Or.inr ⟨j, ?_, ?_, ?_⟩
          · rw [hlen2]; omega
          · rw [g2 j hjp hj1]; exact hj2
          · rw [g2 j hjp hj1]; exact hj3
  · show ∀ c x y, x < (addLeaf ar p top).length →
      y < (addLeaf ar p top).length →
      c ∈ (agetD (addLeaf ar p top) x).children →
      c ∈ (agetD (addLeaf ar p top) y).children → x = y
    intro c x y hx hy hcx hcy
    rw [hlen2] at hx hy
    have key : ∀ z, z < ar.length + 1 →
        c ∈ (agetD (addLeaf ar p top) z).children →
        (z = p ∧ c = ar.length) ∨
        (z ≠ p ∧ z < ar.length ∧ c ∈ (agetD ar z).children) := by
      intro z hz hc
      by_cases hzp : z = p
      · subst hzp
        rw [g1] at hc
        simp only [List.mem_singleton] at hc
        exact Or.inl ⟨rfl, hc⟩
      · by_cases hzL : z = ar.length
        · subst hzL
          rw [g3] at hc
          simp at hc
        · have hzlt : z < ar.length := by omega
          rw [g2 z hzp hzlt] at hc
          exact Or.inr ⟨hzp, hzlt, hc⟩
    rcases key x hx hcx with ⟨hx1, hc1⟩ | ⟨hx1, hx2, hx3⟩ <;>
      rcases key y hy hcy with ⟨hy1, hc2⟩ | ⟨hy1, hy2, hy3⟩
    · rw [hx1, hy1]
    · exfalso
      obtain ⟨_, hb⟩ := I.awf y hy2 c hy3
      have hb2 : c < ar.length := hb
      omega
    · exfalso
      obtain ⟨_, hb⟩ := I.awf x hx2 c hx3
      have hb2 : c < ar.length := hb
      omega
    · exact I.uniq c x y hx2 hy2 hx3 hy3

/-- Expanding a non-terminal entry that owns no node (`tn = none`) with an
ε-free rule appends one fresh childless node per right-hand-side symbol
and pushes the matching entries; the invariant is preserved. -/
theorem inv_expand_none {terms toks : List Sym} {i : Nat} {ar : List ANode}
    {top : Sym} {rest : List (Sym × Option Nat)} {rule : List Sym}
    (I : Inv terms toks ⟨i, ar, (top, none) :: rest⟩)
    (hne : top ≠ "$")
    (hdol : "$" ∉ rule)
    (heps : "eps" ∉ rule) :
    Inv terms toks
      ⟨i, (expandArena ar none
          (List.filter (fun s => decide (s ≠ "eps")) rule)).2,
        (rule.zip (expandArena ar none
          (List.filter (fun s => decide (s ≠ "eps")) rule)).1).filterMap
          (fun p => if p.1 = "eps" then none else some (p.1, some p.2)) ++
          rest⟩ := by
  have hfe : List.filter (fun s => decide (s ≠ "eps")) rule = rule :=
    List.filter_eq_self.mpr
      (fun a ha => decide_eq_true (fun h => heps (h ▸ ha)))
  rw [hfe]
  have hids : (expandArena ar none rule).1 =
      idsFrom ar.length rule.length := by
    simp [expandArena]
  have har : (expandArena ar none rule).2 =
      ar ++ rule.map (fun s => (⟨s, []⟩ : ANode)) := by
    simp [expandArena]
  rw [hids, har]
  have hzmem : ∀ q ∈ rule.zip (idsFrom ar.length rule.length),
      q.1 ≠ "eps" := by
    intro q hq
    exact fun h => heps (h ▸ (List.of_mem_zip hq).1)
  rw [filterMap_push_eq_map _ hzmem]
  have hlen2 : (ar ++ rule.map (fun s => (⟨s, []⟩ : ANode))).length =
      ar.length + rule.length := by
    simp
  have gold : ∀ x, x < ar.length →
      agetD (ar ++ rule.map (fun s => (⟨s, []⟩ : ANode))) x =
        agetD ar x :=
    fun x hx => agetD_append_lt _ hx
  have hsid : stackIds
      ((rule.zip (idsFrom ar.length rule.length)).map
        (fun p => (p.1, some p.2)) ++ rest) =
      idsFrom ar.length rule.length ++ stackIds rest := by
    rw [stackIds_append, stackIds_push_map, map_snd_zip_idsFrom]
  have hrestlt : ∀ nid ∈ stackIds rest, nid < ar.length := by
    intro nid hm
    rcases mem_stackIds.mp hm with ⟨s, hms⟩
    exact (I.sref s nid (List.mem_cons_of_mem _ hms)).1
  have hrdup : (stackIds rest).Nodup := I.ndup
  have hpushmem : ∀ s nid,
      (s, some nid) ∈ (rule.zip (idsFrom ar.length rule.length)).map
        (fun p => (p.1, some p.2)) →
      ∃ k, k < rule.length ∧ nid = ar.length + k ∧
        rule.getD k "" = s := by
    intro s nid hm
    rcases List.mem_map.mp hm with ⟨q, hq, he⟩
    have h1 : q.1 = s := congrArg Prod.fst he
    have h2 : q.2 = nid := Option.some.inj (congrArg Prod.snd he)
    rcases zip_idsFrom_mem rule ar.length q hq with ⟨k, hk, hq2, hq1⟩
    exact ⟨k, hk, h2 ▸ hq2, hq1.trans h1⟩
  refine ⟨?_, I.idx, ?_, ?_, ?_, ?_, ?_, ?_, ?_, ?_⟩
  · show 0 < (ar ++ rule.map (fun s => (⟨s, []⟩ : ANode))).length
    have h0 : 0 < ar.length := I.alen
    rw [hlen2]
    omega
  · show ∀ x, x < (ar ++ rule.map (fun s => (⟨s, []⟩ : ANode))).length →
      ∀ c ∈ (agetD (ar ++ rule.map (fun s => (⟨s, []⟩ : ANode)))
        x).children,
        x < c ∧
          c < (ar ++ rule.map (fun s => (⟨s, []⟩ : ANode))).length
    intro x hx c hc
    rw [hlen2] at hx
    by_cases hxl : x < ar.length
    · rw [gold x hxl] at hc
      obtain ⟨ha, hb⟩ := I.awf x hxl c hc
      have hb2 : c < ar.length := hb
      rw [hlen2]
      exact ⟨ha, by omega⟩
    · obtain ⟨k, hkn, rfl⟩ : ∃ k, k < rule.length ∧ x = ar.length + k :=
        ⟨x - ar.length, by omega, by omega⟩
      rw [agetD_append_map_fresh rule hkn] at hc
      simp at hc
  · show ∀ s nid, (s, some nid) ∈
      (rule.zip (idsFrom ar.length rule.length)).map
        (fun p => (p.1, some p.2)) ++ rest →
      nid < (ar ++ rule.map (fun s => (⟨s, []⟩ : ANode))).length ∧
        (agetD (ar ++ rule.map (fun s => (⟨s, []⟩ : ANode))) nid).sym = s
    intro s nid hm
    rcases List.mem_append.mp hm with hm | hm
    · rcases hpushmem s nid hm with ⟨k, hk, rfl, hsym⟩
      rw [hlen2, agetD_append_map_fresh rule hk]
      exact ⟨by omega, hsym⟩
    · obtain ⟨h1, h2⟩ := I.sref s nid (List.mem_cons_of_mem _ hm)
      have h1b : nid < ar.length := h1
      rw [hlen2, gold nid h1b]
      exact ⟨by omega, h2⟩
  · show ∃ xs, (rule.zip (idsFrom ar.length rule.length)).map
        (fun p => (p.1, some p.2)) ++ rest =
        xs ++ [(("$" : Sym), (none : Option Nat))] ∧
      ∀ q ∈ xs, q.1 ≠ "$"
    obtain ⟨xs, hxs0, hxp⟩ := I.bot
    have hxs : (top, (none : Option Nat)) :: rest =
        xs ++ [(("$" : Sym), (none : Option Nat))] := hxs0
    cases xs with
    | nil =>
      exfalso
      simp only [List.nil_append, List.cons.injEq] at hxs
      exact hne (congrArg Prod.fst hxs.1)
    | cons y ys =>
      simp only [List.cons_append, List.cons.injEq] at hxs
      refine ⟨(rule.zip (idsFrom ar.length rule.length)).map
        (fun p => (p.1, some p.2)) ++ ys, ?_, ?_⟩
      · rw [hxs.2, ← List.append_assoc]
      · intro q hq
        rcases List.mem_append.mp hq with hq | hq
        · rcases List.mem_map.mp hq with ⟨z, hz, rfl⟩
          intro h
          have h2 : z.1 = "$" := h
          exact hdol (h2 ▸ (List.of_mem_zip hz).1)
        · exact hxp q (List.mem_cons_of_mem _ hq)
  · show (stackIds ((rule.zip (idsFrom ar.length rule.length)).map
      (fun p => (p.1, some p.2)) ++ rest)).Nodup
    rw [hsid]
    refine List.Nodup.append (nodup_idsFrom _ _) hrdup ?_
    intro x hx1 hx2
    rw [mem_idsFrom] at hx1
    exact absurd (hrestlt x hx2) (by omega)
  · show ∀ s nid, (s, some nid) ∈
      (rule.zip (idsFrom ar.length rule.length)).map
        (fun p => (p.1, some p.2)) ++ rest →
      (agetD (ar ++ rule.map (fun s => (⟨s, []⟩ : ANode)))
        nid).children = []
    intro s nid hm
    rcases List.mem_append.mp hm with hm | hm
    · rcases hpushmem s nid hm with ⟨k, hk, rfl, _⟩
      rw [agetD_append_map_fresh rule hk]
    · obtain ⟨h1, _⟩ := I.sref s nid (List.mem_cons_of_mem _ hm)
      have h1b : nid < ar.length := h1
      rw [gold nid h1b]
      exact I.slots s nid (List.mem_cons_of_mem _ hm)
  · show ∀ x, x < (ar ++ rule.map (fun s => (⟨s, []⟩ : ANode))).length →
      (agetD (ar ++ rule.map (fun s => (⟨s, []⟩ : ANode))) x).sym ∈
        terms →
      (agetD (ar ++ rule.map (fun s => (⟨s, []⟩ : ANode))) x).children =
        [] ∨
      ∃ c, (agetD (ar ++ rule.map (fun s => (⟨s, []⟩ : ANode)))
          x).children = [c] ∧
        c < (ar ++ rule.map (fun s => (⟨s, []⟩ : ANode))).length ∧
        (agetD (ar ++ rule.map (fun s => (⟨s, []⟩ : ANode))) c).sym =
          (agetD (ar ++ rule.map (fun s => (⟨s, []⟩ : ANode))) x).sym ∧
        (agetD (ar ++ rule.map (fun s => (⟨s, []⟩ : ANode)))
          c).children = [] ∧
        c ∉ stackIds ((rule.zip (idsFrom ar.length rule.length)).map
          (fun p => (p.1, some p.2)) ++ rest)
    intro x hx hsym
    rw [hlen2] at hx
    by_cases hxl : x < ar.length
    · rw [gold x hxl] at hsym ⊢
      rcases I.dup x hxl hsym with h | ⟨c, h1, h2, h3, h4, h5⟩
      · exact Or.inl h
      · have h2b : c < ar.length := h2
        refine Or.inr ⟨c, h1, ?_, ?_, ?_, ?_⟩
        · rw [hlen2]; omega
        · rw [gold c h2b]; exact h3
        · rw [gold c h2b]; exact h4
        · rw [hsid]
          intro hc
          rcases List.mem_append.mp hc with hc | hc
          · rw [mem_idsFrom] at hc; omega
          · exact h5 hc
    · obtain ⟨k, hkn, rfl⟩ : ∃ k, k < rule.length ∧ x = ar.length + k :=
        ⟨x - ar.length, by omega, by omega⟩
      rw [agetD_append_map_fresh rule hkn]
      exact Or.inl rfl
  · show ∀ x, x < (ar ++ rule.map (fun s => (⟨s, []⟩ : ANode))).length →
      (agetD (ar ++ rule.map (fun s => (⟨s, []⟩ : ANode))) x).sym ∈
        terms →
      (agetD (ar ++ rule.map (fun s => (⟨s, []⟩ : ANode))) x).children =
        [] →
      x ∈ stackIds ((rule.zip (idsFrom ar.length rule.length)).map
        (fun p => (p.1, some p.2)) ++ rest) ∨
      ∃ j, j < (ar ++ rule.map (fun s => (⟨s, []⟩ : ANode))).length ∧
        (agetD (ar ++ rule.map (fun s => (⟨s, []⟩ : ANode)))
          j).children = [x] ∧
        (agetD (ar ++ rule.map (fun s => (⟨s, []⟩ : ANode))) j).sym =
          (agetD (ar ++ rule.map (fun s => (⟨s, []⟩ : ANode))) x).sym
    intro x hx hsym hch
    rw [hlen2] at hx
    by_cases hxl : x < ar.length
    · rw [gold x hxl] at hsym hch ⊢
      rcases I.leafLoc x hxl hsym hch with hmem | ⟨j, hj1, hj2, hj3⟩
      · refine Or.inl ?_
        rw [hsid]
        exact List.mem_append.mpr (Or.inr hmem)
      · have hj1b : j < ar.length := hj1
        refine Or.inr ⟨j, ?_, ?_, ?_⟩
        · rw [hlen2]; omega
        · rw [gold j hj1b]; exact hj2
        · rw [gold j hj1b]; exact hj3
    · obtain ⟨k, hkn, rfl⟩ : ∃ k, k < rule.length ∧ x = ar.length + k :=
        ⟨x - ar.length, by omega, by omega⟩
      refine Or.inl ?_
      rw [hsid]
      refine List.mem_append.mpr (Or.inl ?_)
      rw [mem_idsFrom]
      omega
  · show ∀ c x y,
      x < (ar ++ rule.map (fun s => (⟨s, []⟩ : ANode))).length →
      y < (ar ++ rule.map (fun s => (⟨s, []⟩ : ANode))).length →
      c ∈ (agetD (ar ++ rule.map (fun s => (⟨s, []⟩ : ANode)))
        x).children →
      c ∈ (agetD (ar ++ rule.map (fun s => (⟨s, []⟩ : ANode)))
        y).children →
      x = y
    intro c x y hx hy hcx hcy
    rw [hlen2] at hx hy
    have key : ∀ z, z < ar.length + rule.length →
        c ∈ (agetD (ar ++ rule.map (fun s => (⟨s, []⟩ : ANode)))
          z).children →
        z < ar.length ∧ c ∈ (agetD ar z).children := by
      intro z hz hc
      by_cases hzl : z < ar.length
      · rw [gold z hzl] at hc
        exact ⟨hzl, hc⟩
      · obtain ⟨k, hkn, rfl⟩ : ∃ k, k < rule.length ∧
            z = ar.length + k :=
          ⟨z - ar.length, by omega, by omega⟩
        rw [agetD_append_map_fresh rule hkn] at hc
        simp at hc
    obtain ⟨hx1, hx2⟩ := key x hx hcx
    obtain ⟨hy1, hy2⟩ := key y hy hcy
    exact I.uniq c x y hx1 hy1 hx2 hy2

/-- Core of the owned-node expansion step: any arena `b` that agrees with
`ar` off `p`, gives `p` exactly the fresh indices as children, and holds
one fresh childless node per rule symbol, satisfies the invariant with the
pushed entries on the stack. -/
theorem inv_expand_some_aux {terms toks : List Sym} {i : Nat}
    {ar b : List ANode} {top : Sym} {p : Nat}
    {rest : List (Sym × Option Nat)} {rule : List Sym}
    (I : Inv terms toks ⟨i, ar, (top, some p) :: rest⟩)
    (hne : top ≠ "$")
    (hnt : top ∉ terms)
    (hdol : "$" ∉ rule)
    (hlenb : b.length = ar.length + rule.length)
    (gp : agetD b p = ⟨top, idsFrom ar.length rule.length⟩)
    (gold : ∀ x, x < ar.length → x ≠ p → agetD b x = agetD ar x)
    (gfresh : ∀ k, k < rule.length →
      agetD b (ar.length + k) = ⟨rule.getD k "", []⟩) :
    Inv terms toks
      ⟨i, b,
        (rule.zip (idsFrom ar.length rule.length)).map
          (fun q => (q.1, some q.2)) ++ rest⟩ := by
  have hplen : p < ar.length := (I.sref top p (List.mem_cons_self _ _)).1
  have hpch : (agetD ar p).children = [] :=
    I.slots top p (List.mem_cons_self _ _)
  have hndup : (stackIds ((top, some p) :: rest)).Nodup := I.ndup
  rw [stackIds_cons_some] at hndup
  have hpnotin : p ∉ stackIds rest := (List.nodup_cons.mp hndup).1
  have hrdup : (stackIds rest).Nodup := (List.nodup_cons.mp hndup).2
  have hrestlt : ∀ nid ∈ stackIds rest, nid < ar.length := by
    intro nid hm
    rcases mem_stackIds.mp hm with ⟨s, hms⟩
    exact (I.sref s nid (List.mem_cons_of_mem _ hms)).1
  have hsid : stackIds
      ((rule.zip (idsFrom ar.length rule.length)).map
        (fun q => (q.1, some q.2)) ++ rest) =
      idsFrom ar.length rule.length ++ stackIds rest := by
    rw [stackIds_append, stackIds_push_map, map_snd_zip_idsFrom]
  have hpushmem : ∀ s nid,
      (s, some nid) ∈ (rule.zip (idsFrom ar.length rule.length)).map
        (fun q => (q.1, some q.2)) →
      ∃ k, k < rule.length ∧ nid = ar.length + k ∧
        rule.getD k "" = s := by
    intro s nid hm
    rcases List.mem_map.mp hm with ⟨q, hq, he⟩
    have h1 : q.1 = s := congrArg Prod.fst he
    have h2 : q.2 = nid := Option.some.inj (congrArg Prod.snd he)
    rcases zip_idsFrom_mem rule ar.length q hq with ⟨k, hk, hq2, hq1⟩
    exact ⟨k, hk, h2 ▸ hq2, hq1.trans h1⟩
  refine ⟨?_, I.idx, ?_, ?_, ?_, ?_, ?_, ?_, ?_, ?_⟩
  · show 0 < b.length
    have h0 : 0 < ar.length := I.alen
    rw [hlenb]
    omega
  · show ∀ x, x < b.length → ∀ c ∈ (agetD b x).children,
      x < c ∧ c < b.length
    intro x hx c hc
    rw [hlenb] at hx
    by_cases hxp : x = p
    · subst hxp
      rw [gp] at hc
      have hc2 : c ∈ idsFrom ar.length rule.length := hc
      rw [mem_idsFrom] at hc2
      rw [hlenb]
      omega
    · by_cases hxl : x < ar.length
      · rw [gold x hxl hxp] at hc
        obtain ⟨ha, hb⟩ := I.awf x hxl c hc
        have hb2 : c < ar.length := hb
        rw [hlenb]
        exact ⟨ha, by omega⟩
      · obtain ⟨k, hkn, rfl⟩ : ∃ k, k < rule.length ∧
            x = ar.length + k :=
          ⟨x - ar.length, by omega, by omega⟩
        rw [gfresh k hkn] at hc
        simp at hc
  · show ∀ s nid, (s, some nid) ∈
      (rule.zip (idsFrom ar.length rule.length)).map
        (fun q => (q.1, some q.2)) ++ rest →
      nid < b.length ∧ (agetD b nid).sym = s
    intro s nid hm
    rcases List.mem_append.mp hm with hm | hm
    · rcases hpushmem s nid hm with ⟨k, hk, rfl, hsym⟩
      rw [hlenb, gfresh k hk]
      exact ⟨by omega, hsym⟩
    · obtain ⟨h1, h2⟩ := I.sref s nid (List.mem_cons_of_mem _ hm)
      have h1b : nid < ar.length := h1
      have hnp : nid ≠ p := fun he =>
        hpnotin (he ▸ mem_stackIds.mpr ⟨s, hm⟩)
      rw [hlenb, gold nid h1b hnp]
      exact ⟨by omega, h2⟩
  · show ∃ xs, (rule.zip (idsFrom ar.length rule.length)).map
        (fun q => (q.1, some q.2)) ++ rest =
        xs ++ [(("$" : Sym), (none : Option Nat))] ∧
      ∀ q ∈ xs, q.1 ≠ "$"
    obtain ⟨xs, hxs0, hxp⟩ := I.bot
    have hxs : (top, some p) :: rest =
        xs ++ [(("$" : Sym), (none : Option Nat))] := hxs0
    cases xs with
    | nil =>
      exfalso
      simp only [List.nil_append, List.cons.injEq] at hxs
      exact hne (congrArg Prod.fst hxs.1)
    | cons y ys =>
      simp only [List.cons_append, List.cons.injEq] at hxs
      refine ⟨(rule.zip (idsFrom ar.length rule.length)).map
        (fun q => (q.1, some q.2)) ++ ys, ?_, ?_⟩
      · rw [hxs.2, ← List.append_assoc]
      · intro q hq
        rcases List.mem_append.mp hq with hq | hq
        · rcases List.mem_map.mp hq with ⟨z, hz, rfl⟩
          intro h
          have h2 : z.1 = "$" := h
          exact hdol (h2 ▸ (List.of_mem_zip hz).1)
        · exact hxp q (List.mem_cons_of_mem _ hq)
  · show (stackIds ((rule.zip (idsFrom ar.length rule.length)).map
      (fun q => (q.1, some q.2)) ++ rest)).Nodup
    rw [hsid]
    refine List.Nodup.append (nodup_idsFrom _ _) hrdup ?_
    intro x hx1 hx2
    rw [mem_idsFrom] at hx1
    exact absurd (hrestlt x hx2) (by omega)
  · show ∀ s nid, (s, some nid) ∈
      (rule.zip (idsFrom ar.length rule.length)).map
        (fun q => (q.1, some q.2)) ++ rest →
      (agetD b nid).children = []
    intro s nid hm
    rcases List.mem_append.mp hm with hm | hm
    · rcases hpushmem s nid hm with ⟨k, hk, rfl, _⟩
      rw [gfresh k hk]
    · obtain ⟨h1, _⟩ := I.sref s nid (List.mem_cons_of_mem _ hm)
      have h1b : nid < ar.length := h1
      have hnp : nid ≠ p := fun he =>
        hpnotin (he ▸ mem_stackIds.mpr ⟨s, hm⟩)
      rw [gold nid h1b hnp]
      exact I.slots s nid (List.mem_cons_of_mem _ hm)
  · show ∀ x, x < b.length → (agetD b x).sym ∈ terms →
      (agetD b x).children = [] ∨
      ∃ c, (agetD b x).children = [c] ∧ c < b.length ∧
        (agetD b c).sym = (agetD b x).sym ∧
        (agetD b c).children = [] ∧
        c ∉ stackIds ((rule.zip (idsFrom ar.length rule.length)).map
          (fun q => (q.1, some q.2)) ++ rest)
    intro x hx hsym
    rw [hlenb] at hx
    by_cases hxp : x = p
    · subst hxp
      rw [gp] at hsym
      exact absurd hsym hnt
    · by_cases hxl : x < ar.length
      · rw [gold x hxl hxp] at hsym ⊢
        rcases I.dup x hxl hsym with h | ⟨c, h1, h2, h3, h4, h5⟩
        · exact Or.inl h
        · have h2b : c < ar.length := h2
          have hcp : c ≠ p := by
            intro he
            subst he
            exact h5 (List.mem_cons_self _ _)
          refine Or.inr ⟨c, h1, ?_, ?_, ?_, ?_⟩
          · rw [hlenb]; omega
          · rw [gold c h2b hcp]; exact h3
          · rw [gold c h2b hcp]; exact h4
          · rw [hsid]
            intro hc
            rcases List.mem_append.mp hc with hc | hc
            · rw [mem_idsFrom] at hc; omega
            · exact h5 (stackIds_tail_subset _ _ _ hc)
      · obtain ⟨k, hkn, rfl⟩ : ∃ k, k < rule.length ∧
            x = ar.length + k :=
          ⟨x - ar.length, by omega, by omega⟩
        rw [gfresh k hkn]
        exact Or.inl rfl
  · show ∀ x, x < b.length → (agetD b x).sym ∈ terms →
      (agetD b x).children = [] →
      x ∈ stackIds ((rule.zip (idsFrom ar.length rule.length)).map
        (fun q => (q.1, some q.2)) ++ rest) ∨
      ∃ j, j < b.length ∧ (agetD b j).children = [x] ∧
        (agetD b j).sym = (agetD b x).sym
    intro x hx hsym hch
    rw [hlenb] at hx
    by_cases hxp : x = p
    · subst hxp
      rw [gp] at hsym
      exact absurd hsym hnt
    · by_cases hxl : x < ar.length
      · rw [gold x hxl hxp] at hsym hch ⊢
        rcases I.leafLoc x hxl hsym hch with hmem | ⟨j, hj1, hj2, hj3⟩
        · have hmem2 : x ∈ p :: stackIds rest := hmem
          rcases List.mem_cons.mp hmem2 with he | hm
          · exact absurd he hxp
          · refine Or.inl ?_
            rw [hsid]
            exact List.mem_append.mpr (Or.inr hm)
        · have hj1b : j < ar.length := hj1
          have hjp : j ≠ p := by
            intro he
            subst he
            rw [hpch] at hj2
            simp at hj2
          refine Or.inr ⟨j, ?_, ?_, ?_⟩
          · rw [hlenb]; omega
          · rw [gold j hj1b hjp]; exact hj2
          · rw [gold j hj1b hjp]; exact hj3
      · obtain ⟨k, hkn, rfl⟩ : ∃ k, k < rule.length ∧
            x = ar.length + k :=
          ⟨x - ar.length, by omega, by omega⟩
        refine Or.inl ?_
        rw [hsid]
        refine List.mem_append.mpr (Or.inl ?_)
        rw [mem_idsFrom]
        omega
  · show ∀ c x y, x < b.length → y < b.length →
      c ∈ (agetD b x).children → c ∈ (agetD b y).children → x = y
    intro c x y hx hy hcx hcy
    rw [hlenb] at hx hy
    have key : ∀ z, z < ar.length + rule.length →
        c ∈ (agetD b z).children →
        (z = p ∧ ar.length ≤ c) ∨
        (z ≠ p ∧ z < ar.length ∧ c ∈ (agetD ar z).children ∧
          c < ar.length) := by
      intro z hz hc
      by_cases hzp : z = p
      · subst hzp
        rw [gp] at hc
        have hc2 : c ∈ idsFrom ar.length rule.length := hc
        rw [mem_idsFrom] at hc2
        exact Or.inl ⟨rfl, by omega⟩
      · by_cases hzl : z < ar.length
        · rw [gold z hzl hzp] at hc
          obtain ⟨_, hb⟩ := I.awf z hzl c hc
          have hb2 : c < ar.length := hb
          exact Or.inr ⟨hzp, hzl, hc, hb2⟩
        · obtain ⟨k, hkn, rfl⟩ : ∃ k, k < rule.length ∧
              z = ar.length + k :=
            ⟨z - ar.length, by omega, by omega⟩
          rw [gfresh k hkn] at hc
          simp at hc
    rcases key x hx hcx with ⟨hx1, hc1⟩ | ⟨hx1, hx2, hx3, hc1⟩ <;>
      rcases key y hy hcy with ⟨hy1, hc2⟩ | ⟨hy1, hy2, hy3, hc2⟩
    · rw [hx1, hy1]
    · omega
    · omega
    · exact I.uniq c x y hx2 hy2 hx3 hy3

/-- Expanding a non-terminal entry that owns node `p` (the normal case)
with an ε-free rule preserves the invariant: `p` receives one fresh
childless child per right-hand-side symbol, in order, and the matching
entries are pushed. -/
theorem inv_expand_some {terms toks : List Sym} {i : Nat}
    {ar : List ANode} {top : Sym} {p : Nat}
    {rest : List (Sym × Option Nat)} {rule : List Sym}
    (I : Inv terms toks ⟨i, ar, (top, some p) :: rest⟩)
    (hne : top ≠ "$")
    (hnt : top ∉ terms)
    (hdol : "$" ∉ rule)
    (heps : "eps" ∉ rule) :
    Inv terms toks
      ⟨i, (expandArena ar (some p)
          (List.filter (fun s => decide (s ≠ "eps")) rule)).2,
        (rule.zip (expandArena ar (some p)
          (List.filter (fun s => decide (s ≠ "eps")) rule)).1).filterMap
          (fun q => if q.1 = "eps" then none else some (q.1, some q.2)) ++
          rest⟩ := by
  have hfe : List.filter (fun s => decide (s ≠ "eps")) rule = rule :=
    List.filter_eq_self.mpr
      (fun a ha => decide_eq_true (fun h => heps (h ▸ ha)))
  rw [hfe]
  have hplen : p < ar.length := (I.sref top p (List.mem_cons_self _ _)).1
  have hpsym : (agetD ar p).sym = top :=
    (I.sref top p (List.mem_cons_self _ _)).2
  have hpch : (agetD ar p).children = [] :=
    I.slots top p (List.mem_cons_self _ _)
  have hzmem : ∀ q ∈ rule.zip (idsFrom ar.length rule.length),
      q.1 ≠ "eps" := by
    intro q hq
    exact fun h => heps (h ▸ (List.of_mem_zip hq).1)
  have hids : (expandArena ar (some p) rule).1 =
      idsFrom ar.length rule.length := by
    simp [expandArena]
  have har : (expandArena ar (some p) rule).2 =
      setChildren (ar ++ rule.map (fun s => (⟨s, []⟩ : ANode))) p
        (idsFrom ar.length rule.length) := by
    simp only [expandArena]
    rw [agetD_append_lt _ hplen, hpch]
    rfl
  rw [hids, har, filterMap_push_eq_map _ hzmem]
  have hplen2 : p < (ar ++ rule.map
      (fun s => (⟨s, []⟩ : ANode))).length := by
    simp
    omega
  have hlenb : (setChildren (ar ++ rule.map (fun s => (⟨s, []⟩ : ANode)))
      p (idsFrom ar.length rule.length)).length =
      ar.length + rule.length := by
    rw [length_setChildren]
    simp
  have gp : agetD (setChildren (ar ++ rule.map
      (fun s => (⟨s, []⟩ : ANode))) p (idsFrom ar.length rule.length)) p =
      ⟨top, idsFrom ar.length rule.length⟩ := by
    rw [agetD_setChildren_self hplen2, agetD_append_lt _ hplen, hpsym]
  have gold : ∀ x, x < ar.length → x ≠ p →
      agetD (setChildren (ar ++ rule.map (fun s => (⟨s, []⟩ : ANode))) p
        (idsFrom ar.length rule.length)) x = agetD ar x := by
    intro x hx hxp
    rw [agetD_setChildren_ne _ _ hxp, agetD_append_lt _ hx]
  have gfresh : ∀ k, k < rule.length →
      agetD (setChildren (ar ++ rule.map (fun s => (⟨s, []⟩ : ANode))) p
        (idsFrom ar.length rule.length)) (ar.length + k) =
      ⟨rule.getD k "", []⟩ := by
    intro k hk
    have hne2 : ar.length + k ≠ p := by omega
    rw [agetD_setChildren_ne _ _ hne2]
    exact agetD_append_map_fresh rule hk
  exact inv_expand_some_aux I hne hnt hdol hlenb gp gold gfresh

/-- Expanding by the ε-rule creates no nodes and leaves the arena
untouched (the parent's empty child list is rewritten to itself). -/
theorem expandArena_eps (ar : List ANode) (tn : Option Nat)
    (htn : ∀ p, tn = some p → p < ar.length ∧
      (agetD ar p).children = []) :
    (expandArena ar tn
      (List.filter (fun s => decide (s ≠ "eps")) ["eps"])).2 = ar := by
  have hf : List.filter (fun s => decide (s ≠ "eps")) ["eps"] =
      ([] : List Sym) := by decide
  rw [hf]
  simp only [expandArena, List.length_nil, idsFrom, List.map_nil,
    List.append_nil]
  cases tn with
  | none => rfl
  | some p =>
    obtain ⟨hp, hch⟩ := htn p rfl
    show ar.set p ⟨(agetD ar p).sym, (agetD ar p).children⟩ = ar
    exact set_agetD_self hp

/-- The ε-rule pushes nothing. -/
theorem pushed_eps (ids : List Nat) :
    (List.zip ["eps"] ids).filterMap
      (fun q => if q.1 = "eps" then none else some (q.1, some q.2)) =
      ([] : List (Sym × Option Nat)) := by
  cases ids with
  | nil => rfl
  | cons a l =>
    show List.filterMap _ [("eps", a)] = []
    simp

/-- One `.next` step of the machine preserves the invariant, provided the
end marker is not a non-terminal, the input index can only run past a
non-final position by reading a non-`$` token, and every table rule is
`$`-free and uses `eps` only as the whole right-hand side. -/
theorem inv_step {terms nts : List Sym} {table : PTable}
    {toks : List Sym}
    (H3 : "$" ∉ nts)
    (HT : ∀ j, j < toks.length → toks.getD j "" ≠ "$" →
      j + 1 < toks.length)
    (Htab : ∀ nt tk r, getCell table nt tk = some r →
      "$" ∉ r ∧ ("eps" ∉ r ∨ r = ["eps"]))
    {st st2 : DpdaSt}
    (I : Inv terms toks st)
    (h : dpdaStep terms nts table toks st = .next st2) :
    Inv terms toks st2 := by
  obtain ⟨i, ar, stk⟩ := st
  cases stk with
  | nil =>
    exfalso
    simp only [dpdaStep] at h
    split at h <;> exact StepRes.noConfusion h
  | cons hd rest =>
    obtain ⟨top, tn⟩ := hd
    simp only [dpdaStep] at h
    by_cases hacc : top = toks.getD i "" ∧ top = "$"
    · rw [if_pos hacc] at h
      exact StepRes.noConfusion h
    · rw [if_neg hacc] at h
      by_cases hm : top = toks.getD i ""
      · rw [if_pos hm] at h
        have hne : top ≠ "$" := fun hd2 => hacc ⟨hm, hd2⟩
        have hidx : i + 1 < toks.length := by
          have hc : toks.getD i "" ≠ "$" := fun hh => hne (hm.trans hh)
          exact HT i I.idx hc
        cases tn with
        | some p =>
          cases h
          exact hm ▸ inv_match_some I hne hidx
        | none =>
          cases h
          exact inv_drop I hne hidx (fun p hp => Option.noConfusion hp)
      · rw [if_neg hm] at h
        by_cases hmt : top ∈ terms
        · rw [if_pos hmt] at h
          exact StepRes.noConfusion h
        · rw [if_neg hmt] at h
          by_cases hmn : top ∈ nts
          · rw [if_pos hmn] at h
            have hne : top ≠ "$" := fun hd2 => H3 (hd2 ▸ hmn)
            cases hcell : getCell table top (toks.getD i "") with
            | none =>
              rw [hcell] at h
              exact StepRes.noConfusion h
            | some rule =>
              rw [hcell] at h
              dsimp only at h
              by_cases hre : rule = []
              · rw [if_pos hre] at h
                exact StepRes.noConfusion h
              · rw [if_neg hre] at h
                obtain ⟨hdol, hepsor⟩ :=
                  Htab top (toks.getD i "") rule hcell
                rcases hepsor with heps | heq
                · cases h
                  cases tn with
                  | some p => exact inv_expand_some I hne hmt hdol heps
                  | none => exact inv_expand_none I hne hdol heps
                · subst heq
                  cases h
                  have htn : ∀ p, tn = some p → p < ar.length ∧
                      (agetD ar p).children = [] := by
                    intro p hp
                    subst hp
                    exact ⟨(I.sref top p (List.mem_cons_self _ _)).1,
                      I.slots top p (List.mem_cons_self _ _)⟩
                  have har := expandArena_eps ar tn htn
                  have hpu := pushed_eps (expandArena ar tn
                    (List.filter (fun s => decide (s ≠ "eps"))
                      ["eps"])).1
                  rw [har, hpu, List.nil_append]
                  exact inv_drop I hne I.idx (fun p _ => hmt)
          · rw [if_neg hmn] at h
            exact StepRes.noConfusion h

theorem reconstructAux_childless (arena : List ANode) {c : Nat}
    (hch : (agetD arena c).children = []) :
    ∀ fuel, reconstructAux arena fuel c =
      .node (agetD arena c).sym [] := by
  intro fuel
  cases fuel with
  | zero => rfl
  | succ f =>
    show PTree.node (agetD arena c).sym
      ((agetD arena c).children.map (reconstructAux arena f)) = _
    rw [hch]
    rfl

/-- Reading back an arena in which every terminal node that has children
has exactly one identically-labelled childless child, every childless
terminal node has an identically-labelled parent, children grow and
parents are unique, yields a tree satisfying `dupTermB` — provided the
root is not a childless terminal. -/
theorem reconstructAux_dup (terms : List Sym) (arena : List ANode)
    (awf : ∀ i, i < arena.length → ∀ c ∈ (agetD arena i).children,
      i < c ∧ c < arena.length)
    (dup0 : ∀ i, i < arena.length → (agetD arena i).sym ∈ terms →
      (agetD arena i).children = [] ∨
      ∃ c, (agetD arena i).children = [c] ∧ c < arena.length ∧
        (agetD arena c).sym = (agetD arena i).sym ∧
        (agetD arena c).children = [])
    (leaf0 : ∀ i, i < arena.length → (agetD arena i).sym ∈ terms →
      (agetD arena i).children = [] →
      ∃ j, j < arena.length ∧ (agetD arena j).children = [i] ∧
        (agetD arena j).sym = (agetD arena i).sym)
    (uniq : ∀ c i j, i < arena.length → j < arena.length →
      c ∈ (agetD arena i).children → c ∈ (agetD arena j).children →
      i = j) :
    ∀ fuel nid, nid < arena.length → arena.length - nid ≤ fuel →
      ((agetD arena nid).sym ∈ terms →
        (agetD arena nid).children ≠ []) →
      dupTermB (fun s => decide (s ∈ terms))
        (reconstructAux arena fuel nid) = true := by
  intro fuel
  induction fuel with
  | zero =>
    intro nid h1 h2 _
    omega
  | succ f ih =>
    intro nid h1 h2 hpre
    show dupTermB _ (.node (agetD arena nid).sym
      ((agetD arena nid).children.map (reconstructAux arena f))) = true
    by_cases ht : (agetD arena nid).sym ∈ terms
    · rcases dup0 nid h1 ht with hch | ⟨c, hc1, hc2, hc3, hc4⟩
      · exact absurd hch (hpre ht)
      · rw [hc1]
        simp only [List.map_cons, List.map_nil]
        rw [reconstructAux_childless arena hc4 f, hc3]
        simp [dupTermB, ht]
    · have hlist : ∀ t ∈ (agetD arena nid).children.map
          (reconstructAux arena f),
          dupTermB (fun s => decide (s ∈ terms)) t = true := by
        intro t htm
        rcases List.mem_map.mp htm with ⟨c, hcm, rfl⟩
        obtain ⟨hac, hbc⟩ := awf nid h1 c hcm
        refine ih c hbc (by omega) ?_
        intro htc hchc
        rcases leaf0 c hbc htc hchc with ⟨j, hj1, hj2, hj3⟩
        have hcj : c ∈ (agetD arena j).children := by
          rw [hj2]
          exact List.mem_cons_self _ _
        have hjn : j = nid := uniq c j nid hj1 h1 hcj hcm
        subst hjn
        exact ht (hj3.symm ▸ htc)
      rw [show dupTermB (fun s => decide (s ∈ terms))
          (.node (agetD arena nid).sym
            ((agetD arena nid).children.map (reconstructAux arena f))) =
          dupTermListB (fun s => decide (s ∈ terms))
            ((agetD arena nid).children.map (reconstructAux arena f))
        from by simp [dupTermB, ht]]
      rw [dupTermListB_eq_true_iff]
      exact hlist

theorem reconstruct_dup (terms : List Sym) (arena : List ANode)
    (hlen : 0 < arena.length)
    (awf : ∀ i, i < arena.length → ∀ c ∈ (agetD arena i).children,
      i < c ∧ c < arena.length)
    (dup0 : ∀ i, i < arena.length → (agetD arena i).sym ∈ terms →
      (agetD arena i).children = [] ∨
      ∃ c, (agetD arena i).children = [c] ∧ c < arena.length ∧
        (agetD arena c).sym = (agetD arena i).sym ∧
        (agetD arena c).children = [])
    (leaf0 : ∀ i, i < arena.length → (agetD arena i).sym ∈ terms →
      (agetD arena i).children = [] →
      ∃ j, j < arena.length ∧ (agetD arena j).children = [i] ∧
        (agetD arena j).sym = (agetD arena i).sym)
    (uniq : ∀ c i j, i < arena.length → j < arena.length →
      c ∈ (agetD arena i).children → c ∈ (agetD arena j).children →
      i = j) :
    dupTermB (fun s => decide (s ∈ terms)) (reconstruct arena) =
      true := by
  refine reconstructAux_dup terms arena awf dup0 leaf0 uniq
    arena.length 0 hlen (by omega) ?_
  intro ht hch
  rcases leaf0 0 hlen ht hch with ⟨j, hj1, hj2, hj3⟩
  have hcj : (0 : Nat) ∈ (agetD arena j).children := by
    rw [hj2]
    exact List.mem_cons_self _ _
  obtain ⟨ha, _⟩ := awf j hj1 0 hcj
  omega

/-- When a step accepts, the stack is exactly the bottom entry, so the
arena's invariant clauses hold with no stack references and the
reconstructed tree satisfies `dupTermB`. -/
theorem inv_accept {terms nts : List Sym} {table : PTable}
    {toks : List Sym} {st : DpdaSt} {t : PTree}
    (I : Inv terms toks st)
    (h : dpdaStep terms nts table toks st = .done (.ok t)) :
    dupTermB (fun s => decide (s ∈ terms)) t = true := by
  obtain ⟨i, ar, stk⟩ := st
  obtain ⟨xs, hxs0, hxp⟩ := I.bot
  have hxs : stk = xs ++ [(("$" : Sym), (none : Option Nat))] := hxs0
  subst hxs
  cases xs with
  | nil =>
    rw [List.nil_append] at h I
    simp only [dpdaStep] at h
    by_cases hm : ("$" : Sym) = toks.getD i ""
    · rw [if_pos ⟨hm, trivial⟩] at h
      injection h with h2
      injection h2 with h3
      subst h3
      refine reconstruct_dup terms ar I.alen I.awf ?_ ?_ I.uniq
      · intro x hx hsym
        rcases I.dup x hx hsym with hl | ⟨c, h1, h2, h3, h4, _⟩
        · exact Or.inl hl
        · exact Or.inr ⟨c, h1, h2, h3, h4⟩
      · intro x hx hsym hch
        rcases I.leafLoc x hx hsym hch with hmem | hex
        · exfalso
          rcases mem_stackIds.mp hmem with ⟨s, hms⟩
          simp at hms
        · exact hex
    · exfalso
      rw [if_neg (fun hc => hm hc.1), if_neg hm] at h
      by_cases hmt : ("$" : Sym) ∈ terms
      · rw [if_pos hmt] at h
        simp at h
      · rw [if_neg hmt] at h
        by_cases hmn : ("$" : Sym) ∈ nts
        · rw [if_pos hmn] at h
          cases hcell : getCell table "$" (toks.getD i "") with
          | none =>
            rw [hcell] at h
            simp at h
          | some rule =>
            rw [hcell] at h
            dsimp only at h
            by_cases hre : rule = []
            · rw [if_pos hre] at h
              simp at h
            · rw [if_neg hre] at h
              exact StepRes.noConfusion h
        · rw [if_neg hmn] at h
          simp at h
  | cons y ys =>
    exfalso
    obtain ⟨top, tn⟩ := y
    have htop : top ≠ "$" := hxp (top, tn) (List.mem_cons_self _ _)
    rw [List.cons_append] at h
    simp only [dpdaStep] at h
    by_cases hacc : top = toks.getD i "" ∧ top = "$"
    · exact htop hacc.2
    · rw [if_neg hacc] at h
      by_cases hm : top = toks.getD i ""
      · rw [if_pos hm] at h
        exact StepRes.noConfusion h
      · rw [if_neg hm] at h
        by_cases hmt : top ∈ terms
        · rw [if_pos hmt] at h
          simp at h
        · rw [if_neg hmt] at h
          by_cases hmn : top ∈ nts
          · rw [if_pos hmn] at h
            cases hcell : getCell table top (toks.getD i "") with
            | none =>
              rw [hcell] at h
              simp at h
            | some rule =>
              rw [hcell] at h
              dsimp only at h
              by_cases hre : rule = []
              · rw [if_pos hre] at h
                simp at h
              · rw [if_neg hre] at h
                exact StepRes.noConfusion h
          · rw [if_neg hmn] at h
            simp at h

theorem dpdaLoop_dup {terms nts : List Sym} {table : PTable}
    {toks : List Sym}
    (H3 : "$" ∉ nts)
    (HT : ∀ j, j < toks.length → toks.getD j "" ≠ "$" →
      j + 1 < toks.length)
    (Htab : ∀ nt tk r, getCell table nt tk = some r →
      "$" ∉ r ∧ ("eps" ∉ r ∨ r = ["eps"])) :
    ∀ (fuel : Nat) (st : DpdaSt) (t : PTree), Inv terms toks st →
      dpdaLoop terms nts table toks fuel st = some (.ok t) →
      dupTermB (fun s => decide (s ∈ terms)) t = true := by
  intro fuel
  induction fuel with
  | zero =>
    intro st t _ h
    simp [dpdaLoop] at h
  | succ f ih =>
    intro st t I h
    simp only [dpdaLoop] at h
    cases hstep : dpdaStep terms nts table toks st with
    | done o =>
      rw [hstep] at h
      simp only [Option.some.injEq] at h
      subst h
      exact inv_accept I hstep
    | next st2 =>
      rw [hstep] at h
      exact ih st2 t (inv_step H3 HT Htab I hstep) h

theorem getD_append_last (l : List Sym) (x : Sym) :
    (l ++ [x]).getD l.length "" = x := by
  induction l with
  | nil => rfl
  | cons a l ih => exact ih

/-- The initial state — one root node for the start symbol, stack
`[start ↦ 0, $ ↦ −]` — satisfies the invariant. -/
theorem inv_init {terms toks : List Sym} {start : Sym}
    (h0 : 0 < toks.length) (H5 : start ≠ "$") :
    Inv terms toks
      ⟨0, [⟨start, []⟩], [(start, some 0), ("$", none)]⟩ := by
  refine ⟨by simp, h0, ?_, ?_, ?_, ?_, ?_, ?_, ?_, ?_⟩
  · intro i hi c hc
    have hi1 : i < 1 := by simpa using hi
    obtain rfl : i = 0 := by omega
    have hc2 : c ∈ ([] : List Nat) := hc
    simp at hc2
  · intro s nid hm
    rcases List.mem_cons.mp hm with he | hm2
    · have hs : s = start := congrArg Prod.fst he
      have hn : nid = 0 := Option.some.inj (congrArg Prod.snd he)
      subst hs
      subst hn
      exact ⟨by simp, rfl⟩
    · rcases List.mem_cons.mp hm2 with he | hm3
      · exact absurd (congrArg Prod.snd he) (by simp)
      · simp at hm3
  · refine ⟨[(start, some 0)], rfl, ?_⟩
    intro q hq
    simp only [List.mem_singleton] at hq
    subst hq
    exact H5
  · show ([0] : List Nat).Nodup
    simp
  · intro s nid hm
    rcases List.mem_cons.mp hm with he | hm2
    · have hn : nid = 0 := Option.some.inj (congrArg Prod.snd he)
      subst hn
      rfl
    · rcases List.mem_cons.mp hm2 with he | hm3
      · exact absurd (congrArg Prod.snd he) (by simp)
      · simp at hm3
  · intro i hi _
    have hi1 : i < 1 := by simpa using hi
    obtain rfl : i = 0 := by omega
    exact Or.inl rfl
  · intro i hi _ _
    have hi1 : i < 1 := by simpa using hi
    obtain rfl : i = 0 := by omega
    refine Or.inl ?_
    show (0 : Nat) ∈ stackIds [(start, some 0), ("$", none)]
    exact List.mem_cons_self _ _
  · intro c i j hi hj hci hcj
    have hi1 : i < 1 := by simpa using hi
    obtain rfl : i = 0 := by omega
    have hc2 : c ∈ ([] : List Nat) := hci
    simp at hc2

theorem rowGet_mem : ∀ (row : Row) (t : Sym) (r : List Sym),
    rowGet row t = some r → ∃ q ∈ row, q.2 = r := by
  intro row
  induction row with
  | nil => intro t r h; exact Option.noConfusion h
  | cons q rest ih =>
    intro t r h
    obtain ⟨t2, r2⟩ := q
    simp only [rowGet] at h
    by_cases he : t2 = t
    · rw [if_pos he] at h
      exact ⟨(t2, r2), List.mem_cons_self _ _, Option.some.inj h⟩
    · rw [if_neg he] at h
      rcases ih t r h with ⟨q2, hq2, hr⟩
      exact ⟨q2, List.mem_cons_of_mem _ hq2, hr⟩

theorem getCell_mem : ∀ (tbl : PTable) (nt t : Sym) (r : List Sym),
    getCell tbl nt t = some r →
    ∃ row ∈ tbl, ∃ q ∈ row.2, q.2 = r := by
  intro tbl
  induction tbl with
  | nil => intro nt t r h; exact Option.noConfusion h
  | cons e rest ih =>
    intro nt t r h
    obtain ⟨nt2, row⟩ := e
    simp only [getCell] at h
    by_cases he : nt2 = nt
    · rw [if_pos he] at h
      rcases rowGet_mem row t r h with ⟨q, hq, hr⟩
      exact ⟨(nt2, row), List.mem_cons_self _ _, q, hq, hr⟩
    · rw [if_neg he] at h
      rcases ih nt t r h with ⟨row2, hrow2, hq⟩
      exact ⟨row2, List.mem_cons_of_mem _ hrow2, hq⟩

/-- C9: in every parse tree the automaton returns, each terminal symbol
consumed from the token stream appears twice on its root-to-leaf path:
the node pre-created for the right-hand-side terminal receives, at match
time, exactly one additional child bearing the same terminal label, and
no literal text — `dupTermB` checks precisely that every
terminal-labelled node of the result has exactly one identically
labelled, childless child.  The hypotheses state that the end marker is
neither a grammar symbol nor the start symbol, and that table rules do
not contain `$` and use `eps` only as a whole right-hand side — all true
of every table `build_parse_table` produces from a grammar whose symbols
avoid `$`. -/
theorem c9_matched_terminal_has_identical_child
    (terms nts : List Sym) (table : PTable) (start : Sym)
    (tokens : List Sym) (fuel : Nat) (t : PTree)
    (H3 : "$" ∉ nts)
    (H5 : start ≠ "$")
    (Htab : ∀ nt tk r, getCell table nt tk = some r →
      "$" ∉ r ∧ ("eps" ∉ r ∨ r = ["eps"]))
    (hrun : buildParseTree terms nts table start tokens fuel =
      some (.ok t)) :
    dupTermB (fun s => decide (s ∈ terms)) t = true := by
  have hlen : (tokens ++ ["$"]).length = tokens.length + 1 := by simp
  have HT : ∀ j, j < (tokens ++ ["$"]).length →
      (tokens ++ ["$"]).getD j "" ≠ "$" →
      j + 1 < (tokens ++ ["$"]).length := by
    intro j hj hne
    rw [hlen] at hj ⊢
    by_cases hjt : j < tokens.length
    · omega
    · exfalso
      obtain rfl : j = tokens.length := by omega
      exact hne (getD_append_last tokens "$")
  have Iinit : Inv terms (tokens ++ ["$"])
      ⟨0, [⟨start, []⟩], [(start, some 0), ("$", none)]⟩ :=
    inv_init (by rw [hlen]; omega) H5
  exact dpdaLoop_dup H3 HT Htab fuel _ t Iinit hrun

/-- The tree the pipeline returns for `id + id` under the expression
grammar: every matched terminal (`id`, `+`) carries one identically
labelled leaf child. -/
def scenTree : PTree :=
  .node "E"
    [.node "T" [.node "id" [.node "id" []]],
     .node "Ep"
       [.node "+" [.node "+" []],
        .node "T" [.node "id" [.node "id" []]],
        .node "Ep" []]]

theorem c9_matched_terminal_has_identical_child_witness :
    buildParseTree ["+", "id"] ["E", "Ep", "T"] scenTable "E"
      ["id", "+", "id"] 20 = some (.ok scenTree) ∧
    dupTermB (fun s => decide (s ∈ (["+", "id"] : List Sym)))
      scenTree = true := by
  refine ⟨rfl, ?_⟩
  refine c9_matched_terminal_has_identical_child ["+", "id"]
    ["E", "Ep", "T"] scenTable "E" ["id", "+", "id"] 20 scenTree
    (by decide) (by decide) ?_ rfl
  intro nt tk r h
  rcases getCell_mem scenTable nt tk r h with ⟨row, hrow, q, hq, hr⟩
  have hsc : scenTable =
      [("E", [("id", ["T", "Ep"])]),
       ("Ep", [("+", ["+", "T", "Ep"]), ("$", ["eps"])]),
       ("T", [("id", ["id"])])] := by rfl
  rw [hsc] at hrow
  subst hr
  simp only [List.mem_cons, List.not_mem_nil, or_false] at hrow
  rcases hrow with rfl | rfl | rfl
  · simp only [List.mem_cons, List.not_mem_nil, or_false] at hq
    subst hq
    exact ⟨by decide, Or.inl (by decide)⟩
  · simp only [List.mem_cons, List.not_mem_nil, or_false] at hq
    rcases hq with rfl | rfl
    · exact ⟨by decide, Or.inl (by decide)⟩
    · exact ⟨by decide, Or.inr (by decide)⟩
  · simp only [List.mem_cons, List.not_mem_nil, or_false] at hq
    subst hq
    exact ⟨by decide, Or.inl (by decide)⟩

end LLPipeline
